import Mathlib

/-! # SimpleTable

A shallow embedding of `src/SimpleTable.h` (class template `SimpleTable<Types...>`)
and the properties of its two-pass renderer `get()`.

Modelling decisions, all taken from the source:

* The private `mutable std::ostringstream stream` is an explicit state
  (`OStringStream`): format flags, precision, field width, fill character, the
  character buffer and the put position.  Insertion overwrites the buffer from
  the put position and extends it; `str()` returns the whole buffer.
* `sizeof...(Types)` is the parameter `N`.  Column types are `std::string` and
  `int` (`Value`); a `std::tuple<Types...>` is a list of `N` values, a
  `std::array<std::string, N>` a list of `N` strings.  Floating-point columns
  are not modelled, so the precision is stored but never read.
* `widths[index]` is a checked access: an index outside the array makes the
  whole call return `none`.
* Sizes are natural numbers: a cell text is taken to be shorter than `2^31`
  characters, so the `int` parameter of `std::setw` holds every width exactly.
* The stream's error state is not modelled: no insertion of a modelled value and
  no `seekp(0)` can set it.
-/

namespace Hypertheory

/-! ## Format flags (`std::ios_base::fmtflags`) -/

/-- The bits of `std::ios_base::fmtflags`. -/
structure FmtFlags where
  boolalpha : Bool
  dec : Bool
  fixed : Bool
  hex : Bool
  internal : Bool
  left : Bool
  oct : Bool
  right : Bool
  scientific : Bool
  showbase : Bool
  showpoint : Bool
  showpos : Bool
  skipws : Bool
  unitbuf : Bool
  uppercase : Bool
deriving DecidableEq, Repr

namespace FmtFlags

/-- The empty mask, `std::ios_base::fmtflags(0)`: the default constructor argument. -/
def zero : FmtFlags :=
  ⟨false, false, false, false, false, false, false, false, false, false, false, false,
    false, false, false⟩

/-- The flags of a freshly constructed stream (`basic_ios::init`): `skipws | dec`. -/
def init : FmtFlags := { zero with dec := true, skipws := true }

/-- Bitwise or of two masks. -/
def union (a b : FmtFlags) : FmtFlags where
  boolalpha := a.boolalpha || b.boolalpha
  dec := a.dec || b.dec
  fixed := a.fixed || b.fixed
  hex := a.hex || b.hex
  internal := a.internal || b.internal
  left := a.left || b.left
  oct := a.oct || b.oct
  right := a.right || b.right
  scientific := a.scientific || b.scientific
  showbase := a.showbase || b.showbase
  showpoint := a.showpoint || b.showpoint
  showpos := a.showpos || b.showpos
  skipws := a.skipws || b.skipws
  unitbuf := a.unitbuf || b.unitbuf
  uppercase := a.uppercase || b.uppercase

end FmtFlags

/-- The three ways the `adjustfield` bits are read when a field is padded. -/
inductive Adjust
  | left
  | internal
  | right
deriving DecidableEq, Repr

/-- The three ways the `basefield` bits are read when an integer is converted. -/
inductive Base
  | oct
  | hex
  | dec
deriving DecidableEq, Repr

/-- Reading of `flags & adjustfield`: exactly `left`, exactly `internal`, anything else
pads on the left like `right`. -/
def FmtFlags.adjust (f : FmtFlags) : Adjust :=
  if f.left && !f.internal && !f.right then Adjust.left
  else if f.internal && !f.left && !f.right then Adjust.internal
  else Adjust.right

/-- Reading of `flags & basefield`: exactly `oct`, exactly `hex`, anything else is decimal. -/
def FmtFlags.base (f : FmtFlags) : Base :=
  if f.oct && !f.dec && !f.hex then Base.oct
  else if f.hex && !f.dec && !f.oct then Base.hex
  else Base.dec

/-! ## Values and their conversion to text (`operator<<`) -/

/-- A cell of a typed row: a `std::string` or an `int`. -/
inductive Value
  | str (s : List Char)
  | int (i : Int)
deriving DecidableEq, Repr

/-- The value of a 32-bit `int` holding `i`. -/
def toInt32 (i : Int) : Int := (i + 2 ^ 31) % 2 ^ 32 - 2 ^ 31

/-- The value of `i` converted to `unsigned int`. -/
def toUInt32 (i : Int) : Nat := (i % 2 ^ 32).toNat

/-- Digits of `n` in the given base, upper-case letters on request. -/
def digits (base : Nat) (upper : Bool) (n : Nat) : List Char :=
  if upper then (Nat.toDigits base n).map Char.toUpper else Nat.toDigits base n

/-- The characters `operator<<` produces for a value before padding, in two pieces: the
sign or `0x` marker after which `internal` adjustment pads, and the rest. -/
def Value.pieces (f : FmtFlags) : Value → List Char × List Char
  | Value.str s => ([], s)
  | Value.int i =>
    match f.base with
    | Base.oct =>
      ([], if f.showbase && toUInt32 i != 0 then '0' :: digits 8 false (toUInt32 i)
           else digits 8 false (toUInt32 i))
    | Base.hex =>
      (if f.showbase && toUInt32 i != 0 then ['0', if f.uppercase then 'X' else 'x'] else [],
        digits 16 f.uppercase (toUInt32 i))
    | Base.dec =>
      (if toInt32 i < 0 then ['-'] else if f.showpos then ['+'] else [],
        digits 10 false (toInt32 i).natAbs)

/-- The text of a value under the flags, as inserted with field width 0. -/
def Value.text (f : FmtFlags) (v : Value) : List Char :=
  (v.pieces f).1 ++ (v.pieces f).2

/-- Padding of a two-piece text to the field width with the fill character. -/
def padField (f : FmtFlags) (width : Nat) (fill : Char) (p : List Char × List Char) :
    List Char :=
  match f.adjust with
  | Adjust.left => p.1 ++ p.2 ++ List.replicate (width - (p.1.length + p.2.length)) fill
  | Adjust.internal => p.1 ++ List.replicate (width - (p.1.length + p.2.length)) fill ++ p.2
  | Adjust.right => List.replicate (width - (p.1.length + p.2.length)) fill ++ p.1 ++ p.2

/-! ## The output string stream -/

/-- State of a `std::ostringstream`. -/
structure OStringStream where
  flags : FmtFlags
  precision : Int
  width : Nat
  fill : Char
  buf : List Char
  pos : Nat
deriving DecidableEq, Repr

namespace OStringStream

/-- A default-constructed `std::ostringstream`. -/
def init : OStringStream := ⟨FmtFlags.init, 6, 0, ' ', [], 0⟩

/-- Member `setf(flags)`: the bits are or-ed into the current flags. -/
def setf (s : OStringStream) (f : FmtFlags) : OStringStream :=
  { s with flags := s.flags.union f }

/-- Member `precision(p)`. -/
def setPrecision (s : OStringStream) (p : Int) : OStringStream :=
  { s with precision := p }

/-- Member `fill(c)`. -/
def setFill (s : OStringStream) (c : Char) : OStringStream :=
  { s with fill := c }

/-- Manipulator `std::setw(w)`. -/
def setw (s : OStringStream) (w : Nat) : OStringStream :=
  { s with width := w }

/-- Member `str()`: the initialised characters of the buffer. -/
def str (s : OStringStream) : List Char := s.buf

/-- Member `str(text)`: replaces the buffer, the put position returns to the start. -/
def setStr (s : OStringStream) (text : List Char) : OStringStream :=
  { s with buf := text, pos := 0 }

/-- Member `tellp()`. -/
def tellp (s : OStringStream) : Nat := s.pos

/-- Member `seekp(p)` for a position inside the buffer (`get` only seeks to 0). -/
def seekp (s : OStringStream) (p : Nat) : OStringStream :=
  if p ≤ s.buf.length then { s with pos := p } else s

/-- Raw write at the put position: overwrites what is there and extends the buffer. -/
def write (s : OStringStream) (cs : List Char) : OStringStream :=
  { s with buf := s.buf.take s.pos ++ cs ++ s.buf.drop (s.pos + cs.length),
           pos := s.pos + cs.length }

/-- Formatted insertion of a two-piece text: padded to the field width, which is then
reset to 0. -/
def insert (s : OStringStream) (p : List Char × List Char) : OStringStream :=
  { s.write (padField s.flags s.width s.fill p) with width := 0 }

/-- Insertion of a string, `stream << text`. -/
def insertString (s : OStringStream) (text : List Char) : OStringStream :=
  s.insert ([], text)

/-- Insertion of a cell value, `stream << value`. -/
def insertValue (s : OStringStream) (v : Value) : OStringStream :=
  s.insert (v.pieces s.flags)

end OStringStream

/-! ## The table -/

/-- An array of exactly `N` cells. -/
abbrev Cells (α : Type) (N : Nat) := { l : List α // l.length = N }

/-- One stored row: the variant `array_string | tuple<Types...> | monostate`. -/
inductive Row (N : Nat)
  | strings (cells : Cells (List Char) N)
  | values (cells : Cells Value N)
  | separator
deriving DecidableEq

/-- The cells of a row as insertable values; `none` for `std::monostate`. -/
def Row.cells {N : Nat} : Row N → Option (List Value)
  | Row.strings c => some (c.val.map Value.str)
  | Row.values c => some c.val
  | Row.separator => none

/-- The object state of `SimpleTable<Types...>` with `N = sizeof...(Types)`. -/
structure SimpleTable (N : Nat) where
  stream : OStringStream
  rows : List (Row N)

namespace SimpleTable

variable {N : Nat}

/-- Constructor `SimpleTable(flags, precision)`. -/
def new (N : Nat) (flags : FmtFlags) (precision : Int) : SimpleTable N :=
  ⟨(OStringStream.init.setf flags).setPrecision precision, []⟩

/-- Overload `add(StringTypes&&...)`: appends a row of strings. -/
def addStrings (t : SimpleTable N) (row : Cells (List Char) N) : SimpleTable N :=
  { t with rows := t.rows ++ [Row.strings row] }

/-- Overload `add(Types&&...)`: appends a row of typed values. -/
def add (t : SimpleTable N) (row : Cells Value N) : SimpleTable N :=
  { t with rows := t.rows ++ [Row.values row] }

/-- Overload `add()`: appends a separator. -/
def addSeparator (t : SimpleTable N) : SimpleTable N :=
  { t with rows := t.rows ++ [Row.separator] }

/-- The lambda `compute_widths` applied to the cells of one row: every cell is inserted at
the start of the buffer, its end position read with `tellp`, the stream rewound, and
`widths[index]` raised to that length. -/
def compute_widths :
    List Value → Nat → List Nat → OStringStream → Option (List Nat × OStringStream)
  | [], _, widths, stream => some (widths, stream)
  | value :: rest, index, widths, stream =>
    let written := stream.insertValue value
    let pos := written.tellp
    let rewound := written.seekp 0
    match widths[index]? with
    | none => none
    | some w =>
      compute_widths rest (index + 1) (if pos > w then widths.set index pos else widths)
        rewound

/-- The lambda `apply_compute_widths`: separators are skipped. -/
def apply_compute_widths (row : Row N) (widths : List Nat) (stream : OStringStream) :
    Option (List Nat × OStringStream) :=
  match row.cells with
  | some values => compute_widths values 0 widths stream
  | none => some (widths, stream)

/-- The loop `for (auto& row : rows) std::visit(apply_compute_widths, row)`. -/
def compute_all :
    List (Row N) → List Nat → OStringStream → Option (List Nat × OStringStream)
  | [], widths, stream => some (widths, stream)
  | row :: rest, widths, stream =>
    match apply_compute_widths row widths stream with
    | none => none
    | some r => compute_all rest r.1 r.2

/-- The fold of `streamify_row` over the cells, from `index` on. -/
def streamify_cells (N : Nat) (separator padding : List Char) (widths : List Nat) :
    List Value → Nat → OStringStream → Option OStringStream
  | [], _, stream => some stream
  | value :: rest, index, stream =>
    match widths[index]? with
    | none => none
    | some w =>
      streamify_cells N separator padding widths rest (index + 1)
        (((((stream.setw w).insertValue value).insertString padding).insertString
          separator).insertString (if index + 1 = N then ['\n'] else padding))

/-- The lambda `streamify_row`. -/
def streamify_row (N : Nat) (separator padding : List Char) (widths : List Nat)
    (values : List Value) (stream : OStringStream) : Option OStringStream :=
  streamify_cells N separator padding widths values 0
    ((stream.insertString separator).insertString padding)

/-- The lambda `apply_streamify_row`; `Row.separator` is `std::monostate()`. -/
def apply_streamify_row (widths : List Nat) (row : Row N) (stream : OStringStream) :
    Option OStringStream :=
  match row.cells with
  | some values => streamify_row N ['|'] [' '] widths values (stream.setFill ' ')
  | none =>
    streamify_row N ['+'] ['-'] widths (List.replicate N (Value.str [])) (stream.setFill '-')

/-- The loop `for (auto& row : rows) std::visit(apply_streamify_row, row)`. -/
def streamify_all (widths : List Nat) : List (Row N) → OStringStream → Option OStringStream
  | [], stream => some stream
  | row :: rest, stream =>
    match apply_streamify_row widths row stream with
    | none => none
    | some s => streamify_all widths rest s

/-- The first half of `get()`: the buffer is cleared and the widths are computed. -/
def pass1 (t : SimpleTable N) : Option (List Nat × OStringStream) :=
  compute_all t.rows (List.replicate N 0) (t.stream.setStr [])

/-- The local array `widths` of `get()` once the first loop has run. -/
def get_widths (t : SimpleTable N) : Option (List Nat) :=
  (pass1 t).map Prod.fst

/-- Member `get()`: the returned string and the object afterwards (the stream is mutable). -/
def get (t : SimpleTable N) : Option (List Char × SimpleTable N) :=
  match pass1 t with
  | none => none
  | some (widths, s0) =>
    match apply_streamify_row widths (Row.separator : Row N) s0 with
    | none => none
    | some s1 =>
      match streamify_all widths t.rows s1 with
      | none => none
      | some s2 =>
        match apply_streamify_row widths (Row.separator : Row N) s2 with
        | none => none
        | some s3 => some (s3.str, { t with stream := s3 })

/-- A row appended through the `add` overload of its kind. -/
def addRow (t : SimpleTable N) : Row N → SimpleTable N
  | Row.strings c => t.addStrings c
  | Row.values c => t.add c
  | Row.separator => t.addSeparator

/-- A freshly constructed table to which the rows were added in order. -/
def fromRows (N : Nat) (flags : FmtFlags) (precision : Int) (rows : List (Row N)) :
    SimpleTable N :=
  rows.foldl addRow (new N flags precision)

/-- The object states a caller can reach: construction with the given configuration, then
any sequence of `add` and `get` calls. -/
inductive Reachable (flags : FmtFlags) (precision : Int) : SimpleTable N → Prop
  | new : Reachable flags precision (SimpleTable.new N flags precision)
  | addStrings {t : SimpleTable N} (row : Cells (List Char) N) :
      Reachable flags precision t → Reachable flags precision (t.addStrings row)
  | add {t : SimpleTable N} (row : Cells Value N) :
      Reachable flags precision t → Reachable flags precision (t.add row)
  | addSeparator {t : SimpleTable N} :
      Reachable flags precision t → Reachable flags precision t.addSeparator
  | get {t t' : SimpleTable N} {out : List Char} :
      Reachable flags precision t → t.get = some (out, t') → Reachable flags precision t'

/-! ## The stream programs as pure functions

What the two lambdas of `get()` do, read off the code once more without the stream: the
new value of a width, and the characters a row inserts. -/

/-- The update `pos > widths[index] ? widths[index] = pos : ...` on one width. -/
def raise (w pos : Nat) : Nat := if pos > w then pos else w

/-- The widths after `apply_compute_widths` has seen a row. -/
def raiseRow (f : FmtFlags) (widths : List Nat) (row : Row N) : List Nat :=
  match row.cells with
  | some values => List.zipWith raise widths (values.map fun v => (v.text f).length)
  | none => widths

/-- The characters the fold of `streamify_row` inserts for the cells from `index` on. -/
def cellsText (N : Nat) (f : FmtFlags) (fill : Char) (separator padding : List Char)
    (widths : List Nat) : List Value → Nat → List Char
  | [], _ => []
  | value :: rest, index =>
    padField f (widths.getD index 0) fill (value.pieces f) ++ padding ++ separator ++
      (if index + 1 = N then ['\n'] else padding) ++
      cellsText N f fill separator padding widths rest (index + 1)

/-- The characters `apply_streamify_row` inserts for a row. -/
def rowText (f : FmtFlags) (widths : List Nat) (row : Row N) : List Char :=
  match row.cells with
  | some values => ['|'] ++ [' '] ++ cellsText N f ' ' ['|'] [' '] widths values 0
  | none =>
    ['+'] ++ ['-'] ++ cellsText N f '-' ['+'] ['-'] widths (List.replicate N (Value.str [])) 0

/-- The characters of a value or string row when there is at least one column: a bar, then
per column a space, the padded field, a space and a bar, then a newline. -/
def fieldLine (f : FmtFlags) (widths : List Nat) (values : List Value) : List Char :=
  '|' :: (List.zipWith (fun w v => [' '] ++ padField f w ' ' (v.pieces f) ++ [' '] ++ ['|'])
    widths values).flatten ++ ['\n']

/-- Every cell text is at most as long as the width of its column. -/
def Fits (f : FmtFlags) (widths : List Nat) (values : List Value) : Prop :=
  List.Forall₂ (fun w v => (v.text f).length ≤ w) widths values

/-- The fill character `apply_streamify_row` leaves in the stream. -/
def rowFill (row : Row N) : Char :=
  match row.cells with
  | some _ => ' '
  | none => '-'

end SimpleTable

/-- What the width pass leaves of a stream `s`: the configuration and the fill character
are kept, the width is 0, the put position is back at the start, and the buffer holds
probe text no longer than `bound` (or than the buffer was). -/
structure Probed (s s' : OStringStream) (bound : Nat) : Prop where
  flags : s'.flags = s.flags
  precision : s'.precision = s.precision
  fill : s'.fill = s.fill
  width : s'.width = 0
  pos : s'.pos = 0
  buf : s'.buf.length ≤ max s.buf.length bound

/-! ## The specification side

Definitions that follow the words of the specification; the theorems compare them with
the code above. -/

/-- Rendered length of the cell of a row in column `i`: the length of the string for a
string row, of the formatted value for a value row, nothing for a separator. -/
def Row.cellLength {N : Nat} (f : FmtFlags) (i : Nat) : Row N → Option Nat
  | Row.strings c => c.val[i]?.map List.length
  | Row.values c => c.val[i]?.map fun v => (v.text f).length
  | Row.separator => none

/-- The maximum of the rendered lengths in column `i` over all value and string rows,
0 when there is none. -/
def specWidth {N : Nat} (f : FmtFlags) (rows : List (Row N)) (i : Nat) : Nat :=
  (rows.filterMap (Row.cellLength f i)).foldr max 0

/-- The rendered texts of the cells of a value or string row. -/
def Row.texts {N : Nat} (f : FmtFlags) : Row N → Option (List (List Char))
  | Row.strings c => some c.val
  | Row.values c => some (c.val.map (Value.text f))
  | Row.separator => none

/-- A separator line: a plus, then per column `width + 2` dashes and a plus, then a
newline. -/
def sepLine (widths : List Nat) : List Char :=
  '+' :: (widths.map fun w => List.replicate (w + 2) '-' ++ ['+']).flatten ++ ['\n']

/-- A data line with right-justified cells: a bar, then per column a space, the text
preceded by `width - length` spaces, a space and a bar, then a newline. -/
def dataLine (widths : List Nat) (texts : List (List Char)) : List Char :=
  '|' :: (List.zipWith (fun w text =>
      [' '] ++ List.replicate (w - text.length) ' ' ++ text ++ [' ', '|']) widths texts).flatten
    ++ ['\n']

/-- Number of characters of a frame line before its newline: `1 + Σ (width + 3)`. -/
def lineLength (widths : List Nat) : Nat := 1 + (widths.map fun w => w + 3).sum

/-- The `k`-th run of `len` characters of a text. -/
def block (out : List Char) (len k : Nat) : List Char := (out.drop (k * len)).take len

/-- The text `apply_streamify_row` produces for one row by itself, on the empty stream of
a table just constructed with the configuration. -/
def rendering {N : Nat} (flags : FmtFlags) (precision : Int) (widths : List Nat)
    (row : Row N) : List Char :=
  match SimpleTable.apply_streamify_row widths row (SimpleTable.new N flags precision).stream with
  | some s => s.str
  | none => []

/-- A data line with left-justified cells: a bar, then per column a space, the text
followed by `width - length` spaces, a space and a bar, then a newline. -/
def leftLine (widths : List Nat) (texts : List (List Char)) : List Char :=
  '|' :: (List.zipWith (fun w text =>
      [' '] ++ text ++ List.replicate (w - text.length) ' ' ++ [' ', '|']) widths texts).flatten
    ++ ['\n']

/-- A data line with internally adjusted cells: a bar, then per column a space, the sign
or `0x` marker of the cell, `width - length` spaces, the rest of the cell text, a space and
a bar, then a newline. -/
def internalLine (widths : List Nat) (cells : List (List Char × List Char)) : List Char :=
  '|' :: (List.zipWith (fun w (p : List Char × List Char) =>
      [' '] ++ p.1 ++ List.replicate (w - (p.1.length + p.2.length)) ' ' ++ p.2 ++ [' ', '|'])
    widths cells).flatten ++ ['\n']

/-- The line of one stored row under the flags and the widths: the separator line for a
separator; for a value or string row the data line with the cells justified as the
adjustment bits say (to the right unless they say `left` or `internal`). -/
def rowLine {N : Nat} (f : FmtFlags) (widths : List Nat) : Row N → List Char
  | Row.separator => sepLine widths
  | Row.strings c =>
    match f.adjust with
    | Adjust.left => leftLine widths c.val
    | Adjust.internal => internalLine widths (c.val.map fun text => ([], text))
    | Adjust.right => dataLine widths c.val
  | Row.values c =>
    match f.adjust with
    | Adjust.left => leftLine widths (c.val.map (Value.text f))
    | Adjust.internal => internalLine widths (c.val.map (Value.pieces f))
    | Adjust.right => dataLine widths (c.val.map (Value.text f))

/-- The values `index` has at the successive accesses `widths[index]` while one of the two
folds of `get()` runs over the cells of a row, starting at `index`: one access per cell,
after which the index is one higher. -/
def accessed : List Value → Nat → List Nat
  | [], _ => []
  | _ :: rest, index => index :: accessed rest (index + 1)

/-- The buffer after the texts were written one after the other at its start, each one
followed by a rewind: a text replaces as many characters as it has. -/
def probeBuf (buf : List Char) (texts : List (List Char)) : List Char :=
  texts.foldl (fun b text => text ++ b.drop text.length) buf

/-- The cell texts of all value and string rows, in the order the width pass inserts
them. -/
def probeTexts {N : Nat} (f : FmtFlags) (rows : List (Row N)) : List (List Char) :=
  (rows.filterMap (Row.texts f)).flatten

/-- The string row whose cells are the texts of the cells of the row under the flags; a
string row and a separator are left as they are. -/
def Row.asStrings {N : Nat} (f : FmtFlags) : Row N → Row N
  | Row.values c => Row.strings ⟨c.val.map (Value.text f), by rw [List.length_map, c.property]⟩
  | Row.strings c => Row.strings c
  | Row.separator => Row.separator

/-! ## Example tables -/

/-- The table of the round-trip example: columns (string, int), default configuration,
rows ("Alice", 30) and ("Bob", 7). -/
def aliceBob : SimpleTable 2 :=
  ((SimpleTable.new 2 FmtFlags.zero 6).add
    ⟨[Value.str "Alice".toList, Value.int 30], rfl⟩).add
    ⟨[Value.str "Bob".toList, Value.int 7], rfl⟩

/-- The table of Alice and Bob constructed with the flag `std::ios::left`. -/
def aliceBobLeft : SimpleTable 2 :=
  ((SimpleTable.new 2 { FmtFlags.zero with left := true } 6).add
    ⟨[Value.str "Alice".toList, Value.int 30], rfl⟩).add
    ⟨[Value.str "Bob".toList, Value.int 7], rfl⟩

/-- A table with a heading: the string row ("Name", "Age"), a separator, the value rows
("Alice", 30) and ("Bob", 7), default configuration. -/
def nameAge : SimpleTable 2 :=
  ((((SimpleTable.new 2 FmtFlags.zero 6).addStrings
    ⟨["Name".toList, "Age".toList], rfl⟩).addSeparator).add
    ⟨[Value.str "Alice".toList, Value.int 30], rfl⟩).add
    ⟨[Value.str "Bob".toList, Value.int 7], rfl⟩

/-! ## Theorems -/

section StreamLemmas

open OStringStream

theorem padField_zero (f : FmtFlags) (c : Char) (p : List Char × List Char) :
    padField f 0 c p = p.1 ++ p.2 := by
  unfold padField
  cases f.adjust <;> simp

theorem padField_length (f : FmtFlags) (w : Nat) (c : Char) (p : List Char × List Char) :
    (padField f w c p).length = max w (p.1.length + p.2.length) := by
  unfold padField
  cases f.adjust <;> simp <;> omega

theorem padField_empty (f : FmtFlags) (w : Nat) (c : Char) :
    padField f w c ([], []) = List.replicate w c := by
  unfold padField
  cases f.adjust <;> simp

theorem OStringStream.write_nil (s : OStringStream) : s.write [] = s := by
  cases s
  simp [OStringStream.write]

theorem OStringStream.write_write (s : OStringStream) (a b : List Char)
    (h : s.pos ≤ s.buf.length) : (s.write a).write b = s.write (a ++ b) := by
  cases s with
  | mk flags precision width fill buf pos =>
    simp only [OStringStream.write, OStringStream.mk.injEq, true_and]
    simp only at h
    refine ⟨?_, by simp; omega⟩
    have h1 : (List.take pos buf ++ a ++ List.drop (pos + a.length) buf).take (pos + a.length)
        = List.take pos buf ++ a := by
      apply List.take_left'
      simp; omega
    have h2 : (List.take pos buf ++ a ++ List.drop (pos + a.length) buf).drop
        (pos + a.length + b.length) = List.drop (pos + a.length + b.length) buf := by
      rw [List.drop_append_eq_append_drop, List.drop_of_length_le (by simp; omega)]
      simp
      congr 1
      simp; omega
    rw [h1, h2]
    simp [Nat.add_assoc]

theorem OStringStream.write_pos_le (s : OStringStream) (a : List Char)
    (h : s.pos ≤ s.buf.length) : (s.write a).pos ≤ (s.write a).buf.length := by
  simp [OStringStream.write]
  omega

theorem OStringStream.insert_of_width_zero (s : OStringStream) (p : List Char × List Char)
    (h : s.width = 0) : s.insert p = s.write (p.1 ++ p.2) := by
  cases s
  simp only at h
  subst h
  simp [OStringStream.insert, OStringStream.write, padField_zero]

theorem OStringStream.setw_insert (s : OStringStream) (w : Nat) (p : List Char × List Char)
    (h : s.width = 0) : (s.setw w).insert p = s.write (padField s.flags w s.fill p) := by
  cases s
  simp only at h
  subst h
  simp [OStringStream.insert, OStringStream.write, OStringStream.setw]

theorem OStringStream.insertString_of_width_zero (s : OStringStream) (text : List Char)
    (h : s.width = 0) : s.insertString text = s.write text := by
  simp [OStringStream.insertString, OStringStream.insert_of_width_zero s _ h]

theorem OStringStream.write_setFill (s : OStringStream) (a : List Char) (c : Char) :
    (s.write a).setFill c = (s.setFill c).write a := rfl

theorem OStringStream.setFill_setFill (s : OStringStream) (c d : Char) :
    (s.setFill c).setFill d = s.setFill d := rfl

theorem OStringStream.setFill_self (s : OStringStream) : s.setFill s.fill = s := rfl

end StreamLemmas

section RenderLemmas

open OStringStream SimpleTable

/-- The fold of `streamify_row` succeeds while the index stays inside `widths` and writes
exactly `cellsText`. -/
theorem streamify_cells_eq (N : Nat) (sep pad : List Char) (W : List Nat) :
    ∀ (vs : List Value) (index : Nat) (s : OStringStream),
      index + vs.length ≤ W.length → s.width = 0 → s.pos ≤ s.buf.length →
      streamify_cells N sep pad W vs index s
        = some (s.write (cellsText N s.flags s.fill sep pad W vs index)) := by
  intro vs
  induction vs with
  | nil =>
    intro index s _ _ _
    simp [streamify_cells, cellsText, OStringStream.write_nil]
  | cons v rest ih =>
    intro index s hlen hw hpos
    have hidx : index < W.length := by simp at hlen; omega
    have hget : W[index]? = some W[index] := List.getElem?_eq_getElem hidx
    simp only [streamify_cells, hget]
    have e1 : (s.setw W[index]).insertValue v
        = s.write (padField s.flags W[index] s.fill (v.pieces s.flags)) := by
      simpa [OStringStream.insertValue, OStringStream.setw] using
        OStringStream.setw_insert s W[index] (v.pieces s.flags) hw
    rw [e1]
    have w1 : (s.write (padField s.flags W[index] s.fill (v.pieces s.flags))).width = 0 := hw
    have p1 := OStringStream.write_pos_le s (padField s.flags W[index] s.fill (v.pieces s.flags))
      hpos
    rw [OStringStream.insertString_of_width_zero _ _ w1, OStringStream.write_write _ _ _ hpos]
    have w2 : (s.write (padField s.flags W[index] s.fill (v.pieces s.flags) ++ pad)).width = 0 :=
      hw
    rw [OStringStream.insertString_of_width_zero _ _ w2, OStringStream.write_write _ _ _ hpos]
    have w3 : (s.write (padField s.flags W[index] s.fill (v.pieces s.flags) ++ pad
        ++ sep)).width = 0 := hw
    rw [OStringStream.insertString_of_width_zero _ _ w3, OStringStream.write_write _ _ _ hpos]
    have w4 : (s.write (padField s.flags W[index] s.fill (v.pieces s.flags) ++ pad ++ sep
        ++ if index + 1 = N then ['\n'] else pad)).width = 0 := hw
    rw [ih (index + 1) (s.write _) (by simp at hlen ⊢; omega) w4
      (OStringStream.write_pos_le s _ hpos)]
    rw [OStringStream.write_write _ _ _ hpos]
    congr 2
    simp [cellsText, hget]
    rfl

/-- On a stream with width 0, `apply_streamify_row` sets the fill character of the row
kind and writes exactly `rowText`. -/
theorem apply_streamify_row_eq {N : Nat} (W : List Nat) (row : Row N) (s : OStringStream)
    (hW : W.length = N) (hw : s.width = 0) (hpos : s.pos ≤ s.buf.length) :
    apply_streamify_row W row s
      = some ((s.setFill (rowFill row)).write (rowText s.flags W row)) := by
  have key : ∀ (sep pad : List Char) (c : Char) (vs : List Value), vs.length = N →
      streamify_row N sep pad W vs (s.setFill c)
        = some ((s.setFill c).write (sep ++ pad ++ cellsText N s.flags c sep pad W vs 0)) := by
    intro sep pad c vs hvs
    unfold streamify_row
    have w0 : (s.setFill c).width = 0 := hw
    have p0 : (s.setFill c).pos ≤ (s.setFill c).buf.length := hpos
    rw [OStringStream.insertString_of_width_zero _ _ w0]
    have w1 : ((s.setFill c).write sep).width = 0 := hw
    rw [OStringStream.insertString_of_width_zero _ _ w1, OStringStream.write_write _ _ _ p0]
    have w2 : ((s.setFill c).write (sep ++ pad)).width = 0 := hw
    rw [streamify_cells_eq N sep pad W vs 0 ((s.setFill c).write (sep ++ pad)) (by omega) w2
      (OStringStream.write_pos_le _ _ p0)]
    rw [OStringStream.write_write _ _ _ p0]
    rfl
  cases row with
  | strings c =>
    simpa [apply_streamify_row, rowText, rowFill, Row.cells] using
      key ['|'] [' '] ' ' (c.val.map Value.str) (by simp [c.property])
  | values c =>
    simpa [apply_streamify_row, rowText, rowFill, Row.cells] using
      key ['|'] [' '] ' ' c.val c.property
  | separator =>
    simpa [apply_streamify_row, rowText, rowFill, Row.cells] using
      key ['+'] ['-'] '-' (List.replicate N (Value.str [])) (by simp)

end RenderLemmas

section WidthLemmas

open OStringStream SimpleTable

theorem raise_eq_max (w pos : Nat) : raise w pos = max w pos := by
  unfold raise
  split <;> omega

/-- One probe: the value is written at the start of the buffer, its length is what
`tellp` reports, and the stream is rewound. -/
theorem probe_eq (s : OStringStream) (v : Value) (hw : s.width = 0) (hp : s.pos = 0) :
    (s.insertValue v).tellp = (v.text s.flags).length ∧
    (s.insertValue v).seekp 0
      = { s with buf := v.text s.flags ++ s.buf.drop (v.text s.flags).length } := by
  cases s with
  | mk flags precision width fill buf pos =>
    simp only at hw hp
    subst hw hp
    simp [OStringStream.insertValue, OStringStream.insert, OStringStream.write,
      OStringStream.tellp, OStringStream.seekp, padField_zero, Value.text]

/-- The lambda `compute_widths` on a row of as many cells as there are widths left:
it succeeds, raises each remaining width to the length of its cell, and leaves the
stream rewound. -/
theorem compute_widths_eq (f : FmtFlags) :
    ∀ (vs : List Value) (done todo : List Nat) (s : OStringStream),
      vs.length = todo.length → s.flags = f → s.width = 0 → s.pos = 0 →
      ∃ s', compute_widths vs done.length (done ++ todo) s
          = some (done ++ List.zipWith raise todo (vs.map fun v => (v.text f).length), s') ∧
        Probed s s'
          (done ++ List.zipWith raise todo (vs.map fun v => (v.text f).length)).sum := by
  intro vs
  induction vs with
  | nil =>
    intro done todo s hlen hf hw hp
    have : todo = [] := List.length_eq_zero.mp hlen.symm
    subst this
    exact ⟨s, by simp [compute_widths], ⟨rfl, rfl, rfl, hw, hp, by omega⟩⟩
  | cons v rest ih =>
    intro done todo s hlen hf hw hp
    cases todo with
    | nil => simp at hlen
    | cons w todo =>
      obtain ⟨htell, hseek⟩ := probe_eq s v hw hp
      have hget : (done ++ w :: todo)[done.length]? = some w := by
        rw [List.getElem?_append_right (Nat.le_refl _)]
        simp
      have hset : (if (v.text s.flags).length > w
          then (done ++ w :: todo).set done.length (v.text s.flags).length
          else done ++ w :: todo)
          = (done ++ [raise w (v.text f).length]) ++ todo := by
        subst hf
        unfold raise
        split <;> simp
      simp only [compute_widths, hget, htell, hseek, hset]
      have hl : (done ++ [raise w (v.text f).length]).length = done.length + 1 := by simp
      obtain ⟨s', he, hpr⟩ := ih (done ++ [raise w (v.text f).length]) todo
        { s with buf := v.text s.flags ++ s.buf.drop (v.text s.flags).length }
        (by simpa using hlen) hf hw hp
      rw [hl] at he
      refine ⟨s', by simpa using he, ⟨hpr.flags, hpr.precision, hpr.fill, hpr.width, hpr.pos, ?_⟩⟩
      have hb := hpr.buf
      have hr := raise_eq_max w (v.text f).length
      subst hf
      simp only [List.length_append, List.length_drop, List.sum_append, List.sum_cons,
        List.sum_nil, List.map_cons, List.zipWith_cons_cons, List.append_assoc,
        List.singleton_append] at hb ⊢
      omega

theorem sum_le_sum_zipWith_raise :
    ∀ (W l : List Nat), W.length ≤ l.length → W.sum ≤ (List.zipWith raise W l).sum := by
  intro W
  induction W with
  | nil => intro l _; simp
  | cons w W ih =>
    intro l hl
    cases l with
    | nil => simp at hl
    | cons x l =>
      have h1 := ih l (by simpa using hl)
      have h2 := raise_eq_max w x
      simp only [List.zipWith_cons_cons, List.sum_cons]
      omega

theorem raiseRow_length {N : Nat} (f : FmtFlags) (W : List Nat) (row : Row N)
    (hW : W.length = N) : (raiseRow f W row).length = N := by
  cases row with
  | strings c => simp [raiseRow, Row.cells, hW, c.property]
  | values c => simp [raiseRow, Row.cells, hW, c.property]
  | separator => simpa [raiseRow, Row.cells] using hW

theorem sum_le_raiseRow {N : Nat} (f : FmtFlags) (W : List Nat) (row : Row N)
    (hW : W.length = N) : W.sum ≤ (raiseRow f W row).sum := by
  cases row with
  | strings c =>
    simpa [raiseRow, Row.cells] using
      sum_le_sum_zipWith_raise W _ (by simp [hW, c.property])
  | values c =>
    simpa [raiseRow, Row.cells] using
      sum_le_sum_zipWith_raise W _ (by simp [hW, c.property])
  | separator => simp [raiseRow, Row.cells]

theorem foldl_raiseRow_length {N : Nat} (f : FmtFlags) :
    ∀ (rows : List (Row N)) (W : List Nat), W.length = N →
      (rows.foldl (raiseRow f) W).length = N := by
  intro rows
  induction rows with
  | nil => intro W hW; simpa using hW
  | cons row rest ih =>
    intro W hW
    simpa using ih _ (raiseRow_length f W row hW)

theorem sum_le_foldl_raiseRow {N : Nat} (f : FmtFlags) :
    ∀ (rows : List (Row N)) (W : List Nat), W.length = N →
      W.sum ≤ (rows.foldl (raiseRow f) W).sum := by
  intro rows
  induction rows with
  | nil => intro W _; simp
  | cons row rest ih =>
    intro W hW
    have h1 := sum_le_raiseRow f W row hW
    have h2 := ih _ (raiseRow_length f W row hW)
    simp only [List.foldl_cons]
    omega

/-- The lambda `apply_compute_widths` on one row. -/
theorem apply_compute_widths_eq {N : Nat} (f : FmtFlags) (row : Row N) (W : List Nat)
    (s : OStringStream) (hW : W.length = N) (hf : s.flags = f) (hw : s.width = 0)
    (hp : s.pos = 0) :
    ∃ s', apply_compute_widths row W s = some (raiseRow f W row, s') ∧
      Probed s s' (raiseRow f W row).sum := by
  have key : ∀ vs : List Value, vs.length = N →
      ∃ s', compute_widths vs 0 W s
          = some (List.zipWith raise W (vs.map fun v => (v.text f).length), s') ∧
        Probed s s' (List.zipWith raise W (vs.map fun v => (v.text f).length)).sum := by
    intro vs hvs
    simpa using compute_widths_eq f vs [] W s (by omega) hf hw hp
  cases row with
  | strings c =>
    simpa [apply_compute_widths, raiseRow, Row.cells] using
      key (c.val.map Value.str) (by simp [c.property])
  | values c =>
    simpa [apply_compute_widths, raiseRow, Row.cells] using key c.val c.property
  | separator =>
    exact ⟨s, by simp [apply_compute_widths, raiseRow, Row.cells],
      ⟨rfl, rfl, rfl, hw, hp, by omega⟩⟩

/-- The width loop of `get()`: it succeeds and folds `raiseRow` over the rows. -/
theorem compute_all_eq {N : Nat} (f : FmtFlags) :
    ∀ (rows : List (Row N)) (W : List Nat) (s : OStringStream),
      W.length = N → s.flags = f → s.width = 0 → s.pos = 0 →
      ∃ s', compute_all rows W s = some (rows.foldl (raiseRow f) W, s') ∧
        Probed s s' (rows.foldl (raiseRow f) W).sum := by
  intro rows
  induction rows with
  | nil =>
    intro W s _ _ hw hp
    exact ⟨s, by simp [compute_all], ⟨rfl, rfl, rfl, hw, hp, by omega⟩⟩
  | cons row rest ih =>
    intro W s hW hf hw hp
    obtain ⟨s1, e1, p1⟩ := apply_compute_widths_eq f row W s hW hf hw hp
    obtain ⟨s2, e2, p2⟩ := ih (raiseRow f W row) s1 (raiseRow_length f W row hW)
      (p1.flags.trans hf) p1.width p1.pos
    refine ⟨s2, by simp [compute_all, e1, e2], ⟨p2.flags.trans p1.flags,
      p2.precision.trans p1.precision, p2.fill.trans p1.fill, p2.width, p2.pos, ?_⟩⟩
    have h1 := p1.buf
    have h2 := p2.buf
    have h3 := sum_le_foldl_raiseRow f rest _ (raiseRow_length f W row hW)
    simp only [List.foldl_cons]
    omega

end WidthLemmas

section GetLemmas

open OStringStream SimpleTable

/-- The render loop of `get()`: it succeeds and writes the texts of the rows one after the
other. -/
theorem streamify_all_eq {N : Nat} (W : List Nat) (hW : W.length = N) :
    ∀ (rows : List (Row N)) (s : OStringStream), s.width = 0 → s.pos ≤ s.buf.length →
      ∃ c, streamify_all W rows s
        = some ((s.setFill c).write (rows.map (rowText s.flags W)).flatten) := by
  intro rows
  induction rows with
  | nil =>
    intro s _ _
    exact ⟨s.fill, by simp [streamify_all, OStringStream.write_nil, OStringStream.setFill_self]⟩
  | cons row rest ih =>
    intro s hw hpos
    have e1 := apply_streamify_row_eq W row s hW hw hpos
    have w1 : ((s.setFill (rowFill row)).write (rowText s.flags W row)).width = 0 := hw
    have p0 : (s.setFill (rowFill row)).pos ≤ (s.setFill (rowFill row)).buf.length := hpos
    obtain ⟨c, e2⟩ := ih ((s.setFill (rowFill row)).write (rowText s.flags W row)) w1
      (OStringStream.write_pos_le _ _ p0)
    refine ⟨c, ?_⟩
    simp only [streamify_all, e1, e2, OStringStream.write_setFill,
      OStringStream.setFill_setFill]
    have p1 : (s.setFill c).pos ≤ (s.setFill c).buf.length := hpos
    rw [OStringStream.write_write _ _ _ p1]
    rfl

theorem sum_le_cellsText_length (N : Nat) (f : FmtFlags) (c : Char) (sep pad : List Char) :
    ∀ (vs : List Value) (done todo : List Nat), vs.length = todo.length →
      todo.sum ≤ (cellsText N f c sep pad (done ++ todo) vs done.length).length := by
  intro vs
  induction vs with
  | nil =>
    intro done todo h
    have : todo = [] := List.length_eq_zero.mp h.symm
    simp [this]
  | cons v rest ih =>
    intro done todo h
    cases todo with
    | nil => simp at h
    | cons w todo =>
      have h1 := ih (done ++ [w]) todo (by simpa using h)
      have hget : (done ++ w :: todo)[done.length]? = some w := by
        rw [List.getElem?_append_right (Nat.le_refl _)]
        simp
      have hl := padField_length f w c (v.pieces f)
      simp only [List.append_assoc, List.singleton_append, List.length_append,
        List.length_singleton] at h1
      simp only [cellsText, List.getD_eq_getElem?_getD, hget, Option.getD_some,
        List.length_append, List.sum_cons, hl]
      omega

theorem sum_le_rowText_separator {N : Nat} (f : FmtFlags) (W : List Nat) (hW : W.length = N) :
    W.sum ≤ (rowText f W (Row.separator : Row N)).length := by
  have h := sum_le_cellsText_length N f '-' ['+'] ['-'] (List.replicate N (Value.str [])) [] W
    (by simp [hW])
  simp only [rowText, Row.cells, List.length_append]
  simpa using Nat.le_trans h (Nat.le_add_left _ _)

/-- The characterisation of `get()` on an object whose stream has field width 0: the call
succeeds; the widths are the fold of `raiseRow`; the returned string is the text of a
separator, of every row in order, and of a separator; the stream keeps its configuration
and is left with width 0. -/
theorem get_eq {N : Nat} (t : SimpleTable N) (hw : t.stream.width = 0) :
    t.get_widths = some (t.rows.foldl (raiseRow t.stream.flags) (List.replicate N 0)) ∧
    ∃ s3, t.get = some
        (rowText t.stream.flags (t.rows.foldl (raiseRow t.stream.flags) (List.replicate N 0))
            (Row.separator : Row N) ++
          (t.rows.map (rowText t.stream.flags
            (t.rows.foldl (raiseRow t.stream.flags) (List.replicate N 0)))).flatten ++
          rowText t.stream.flags (t.rows.foldl (raiseRow t.stream.flags) (List.replicate N 0))
            (Row.separator : Row N),
          { t with stream := s3 }) ∧
      s3.flags = t.stream.flags ∧ s3.precision = t.stream.precision ∧ s3.width = 0 := by
  obtain ⟨s0, e0, p0⟩ := compute_all_eq t.stream.flags t.rows (List.replicate N 0)
    (t.stream.setStr []) (by simp) rfl hw rfl
  have hW := foldl_raiseRow_length t.stream.flags t.rows (List.replicate N 0) (by simp)
  generalize t.rows.foldl (raiseRow t.stream.flags) (List.replicate N 0) = W at e0 p0 hW
  refine ⟨by simp [get_widths, pass1, e0], ?_⟩
  have hpos0 : s0.pos ≤ s0.buf.length := by rw [p0.pos]; omega
  have e1 := apply_streamify_row_eq W (Row.separator : Row N) s0 hW p0.width hpos0
  have pf : (s0.setFill '-').pos ≤ (s0.setFill '-').buf.length := hpos0
  obtain ⟨c, e2⟩ := streamify_all_eq W hW t.rows
    ((s0.setFill '-').write (rowText s0.flags W (Row.separator : Row N))) p0.width
    (OStringStream.write_pos_le _ _ pf)
  have pc : (s0.setFill c).pos ≤ (s0.setFill c).buf.length := hpos0
  have e3 := apply_streamify_row_eq W (Row.separator : Row N)
    ((s0.setFill c).write (rowText s0.flags W (Row.separator : Row N) ++
      (t.rows.map (rowText s0.flags W)).flatten)) hW p0.width
    (OStringStream.write_pos_le _ _ pc)
  have hfl : ∀ (a : List Char) (d : Char), ((s0.setFill d).write a).flags = s0.flags :=
    fun _ _ => rfl
  simp only [rowFill, Row.cells, OStringStream.write_setFill, OStringStream.setFill_setFill,
    hfl] at e1 e2 e3
  rw [OStringStream.write_write _ _ _ pc] at e2
  rw [OStringStream.write_write _ _ _ pf] at e3
  have hf : s0.flags = t.stream.flags := p0.flags
  have hsum := sum_le_rowText_separator s0.flags W hW
  have hbuf : s0.buf.length ≤ max 0 W.sum := p0.buf
  rw [hf] at e1 e2 e3 hsum
  refine ⟨(s0.setFill '-').write (rowText t.stream.flags W (Row.separator : Row N) ++
      (t.rows.map (rowText t.stream.flags W)).flatten ++
      rowText t.stream.flags W (Row.separator : Row N)), ?_, hf, p0.precision, p0.width⟩
  simp only [SimpleTable.get, pass1, e0, e1, e2, e3, hfl, hf]
  simp only [Nat.zero_max] at hbuf
  simp [OStringStream.str, OStringStream.write, OStringStream.setFill, p0.pos]
  omega

/-- Every reachable object has a stream of field width 0 that carries the configuration
given to the constructor. -/
theorem SimpleTable.Reachable.stream_inv {N : Nat} {flags : FmtFlags} {precision : Int}
    {t : SimpleTable N} (h : Reachable flags precision t) :
    t.stream.width = 0 ∧ t.stream.flags = FmtFlags.init.union flags ∧
      t.stream.precision = precision := by
  induction h with
  | new => exact ⟨rfl, rfl, rfl⟩
  | addStrings row _ ih => exact ih
  | add row _ ih => exact ih
  | addSeparator _ ih => exact ih
  | get _ hget ih =>
    obtain ⟨_, s3, e, hf, hp, hw⟩ := get_eq _ ih.1
    rw [e] at hget
    simp only [Option.some.injEq, Prod.mk.injEq] at hget
    rw [← hget.2]
    exact ⟨hw, hf.trans ih.2.1, hp.trans ih.2.2⟩

end GetLemmas

section LineLemmas

open SimpleTable

/-- With at least one column the cells of a row come out as one group per column and a
final newline. -/
theorem cellsText_eq_flatten (N : Nat) (f : FmtFlags) (c : Char) (sep pad : List Char) :
    ∀ (vs : List Value) (done todo : List Nat), vs.length = todo.length → vs ≠ [] →
      done.length + todo.length = N →
      pad ++ cellsText N f c sep pad (done ++ todo) vs done.length
        = (List.zipWith (fun w v => pad ++ padField f w c (v.pieces f) ++ pad ++ sep)
            todo vs).flatten ++ ['\n'] := by
  intro vs
  induction vs with
  | nil => intro _ _ _ h; exact absurd rfl h
  | cons v rest ih =>
    intro done todo hlen _ hN
    cases todo with
    | nil => simp at hlen
    | cons w todo =>
      have hget : (done ++ w :: todo)[done.length]? = some w := by
        rw [List.getElem?_append_right (Nat.le_refl _)]
        simp
      cases rest with
      | nil =>
        have ht : todo = [] := List.length_eq_zero.mp (by simpa using hlen.symm)
        subst ht
        have hN1 : done.length + 1 = N := by simpa using hN
        simp [cellsText, hget, hN1]
      | cons v2 rest =>
        have hN1 : ¬ done.length + 1 = N := by
          simp only [List.length_cons] at hlen hN
          omega
        have h := ih (done ++ [w]) todo (by simpa using hlen) (by simp)
          (by simp only [List.length_append, List.length_cons, List.length_nil] at hN ⊢; omega)
        simp only [List.append_assoc, List.singleton_append, List.length_append,
          List.length_singleton] at h
        rw [cellsText]
        simp only [List.getD_eq_getElem?_getD, hget, Option.getD_some, hN1, if_false,
          List.zipWith_cons_cons, List.flatten_cons, List.append_assoc]
        rw [h]

theorem Row.cells_length {N : Nat} {row : Row N} {vs : List Value}
    (h : row.cells = some vs) : vs.length = N := by
  cases row with
  | strings c =>
    simp only [Row.cells, Option.some.injEq] at h
    simp [← h, c.property]
  | values c =>
    simp only [Row.cells, Option.some.injEq] at h
    simp [← h, c.property]
  | separator => simp [Row.cells] at h

theorem Row.cells_eq_none {N : Nat} {row : Row N} (h : row.cells = none) :
    row = Row.separator := by
  cases row <;> simp [Row.cells] at h ⊢

theorem Value.text_str (f : FmtFlags) (s : List Char) : (Value.str s).text f = s := by
  simp [Value.text, Value.pieces]

theorem Row.texts_eq {N : Nat} (f : FmtFlags) (row : Row N) :
    row.texts f = row.cells.map fun vs => vs.map (Value.text f) := by
  cases row with
  | strings c =>
    simp only [Row.texts, Row.cells, Option.map_some', List.map_map, Option.some.injEq]
    have : (Value.text f ∘ Value.str) = id := by
      funext s
      simp [Value.text_str]
    rw [this, List.map_id]
  | values c => rfl
  | separator => rfl

/-- The text of a value or string row, with at least one column. -/
theorem rowText_data {N : Nat} (hN : 0 < N) (f : FmtFlags) (W : List Nat) (hW : W.length = N)
    (row : Row N) (vs : List Value) (h : row.cells = some vs) :
    rowText f W row = fieldLine f W vs := by
  have hvs := Row.cells_length h
  have hne : vs ≠ [] := by
    intro e
    rw [e] at hvs
    simp at hvs
    omega
  have key := cellsText_eq_flatten N f ' ' ['|'] [' '] vs [] W (by omega) hne (by simpa using hW)
  simp only [List.nil_append, List.length_nil] at key
  simp only [rowText, h, fieldLine]
  rw [List.append_assoc, key]
  simp

theorem zipWith_replicate_right {α β γ : Type} (g : α → β → γ) (b : β) :
    ∀ l : List α, List.zipWith g l (List.replicate l.length b) = l.map fun a => g a b := by
  intro l
  induction l with
  | nil => rfl
  | cons a l ih => simp [List.replicate_succ, ih]

/-- The text of a separator, with at least one column, under every configuration. -/
theorem rowText_separator {N : Nat} (hN : 0 < N) (f : FmtFlags) (W : List Nat)
    (hW : W.length = N) : rowText f W (Row.separator : Row N) = sepLine W := by
  have hne : List.replicate N (Value.str []) ≠ [] := by
    intro e
    have := congrArg List.length e
    simp at this
    omega
  have key := cellsText_eq_flatten N f '-' ['+'] ['-'] (List.replicate N (Value.str [])) [] W
    (by simp [hW]) hne (by simpa using hW)
  simp only [List.nil_append, List.length_nil] at key
  simp only [rowText, Row.cells, sepLine]
  rw [List.append_assoc, key, ← hW, zipWith_replicate_right]
  have hcell : ∀ w : Nat, ['-'] ++ padField f w '-' ((Value.str []).pieces f) ++ ['-'] ++ ['+']
      = List.replicate (w + 2) '-' ++ ['+'] := by
    intro w
    have : (Value.str []).pieces f = ([], []) := rfl
    rw [this, padField_empty, show w + 2 = 1 + w + 1 by omega, List.replicate_add,
      List.replicate_add]
    rfl
  simp only [hcell]
  simp

/-- Under right adjustment a field is the text preceded by the missing fill characters. -/
theorem fieldLine_right (f : FmtFlags) (hf : f.adjust = Adjust.right) (W : List Nat)
    (vs : List Value) : fieldLine f W vs = dataLine W (vs.map (Value.text f)) := by
  have hg : (fun (w : Nat) (v : Value) => [' '] ++ padField f w ' ' (v.pieces f) ++ [' '] ++ ['|'])
      = fun w v =>
        [' '] ++ List.replicate (w - (v.text f).length) ' ' ++ v.text f ++ [' ', '|'] := by
    funext w v
    simp [padField, hf, Value.text]
  simp only [fieldLine, dataLine, List.zipWith_map_right, hg]

theorem sepLine_length (W : List Nat) : (sepLine W).length = lineLength W + 1 := by
  simp only [sepLine, lineLength, List.length_cons, List.length_append, List.length_flatten,
    List.map_map, List.length_singleton, List.length_nil]
  have : (List.length ∘ fun w => List.replicate (w + 2) '-' ++ ['+']) = fun w => w + 3 := by
    funext w
    simp
  rw [this]
  omega

theorem fieldLine_length (f : FmtFlags) (W : List Nat) (vs : List Value) (h : Fits f W vs) :
    (fieldLine f W vs).length = lineLength W + 1 := by
  have key : ((List.zipWith (fun w v => [' '] ++ padField f w ' ' (v.pieces f) ++ [' '] ++ ['|'])
      W vs).flatten).length = (W.map fun w => w + 3).sum := by
    unfold Fits at h
    induction h with
    | nil => simp
    | cons hwv _ ih =>
      rename_i w v W vs
      simp only [List.zipWith_cons_cons, List.flatten_cons, List.length_append, ih,
        List.map_cons, List.sum_cons, padField_length, List.length_singleton]
      simp only [Value.text, List.length_append] at hwv
      omega
  simp only [fieldLine, lineLength, List.length_cons, List.length_append, key,
    List.length_singleton, List.length_nil]
  omega

end LineLemmas

section SpecWidthLemmas

open SimpleTable

theorem specWidth_cons {N : Nat} (f : FmtFlags) (row : Row N) (rest : List (Row N)) (i : Nat) :
    specWidth f (row :: rest) i
      = match row.cellLength f i with
        | some l => max l (specWidth f rest i)
        | none => specWidth f rest i := by
  unfold specWidth
  rw [List.filterMap_cons]
  cases row.cellLength f i <;> simp

/-- The cell of a row in column `i`, read through the values `get()` inserts. -/
theorem Row.cellLength_eq {N : Nat} (f : FmtFlags) (i : Nat) (row : Row N) :
    row.cellLength f i
      = row.cells.bind fun vs => vs[i]?.map fun v => (v.text f).length := by
  cases row with
  | strings c =>
    simp only [Row.cellLength, Row.cells, Option.some_bind, List.getElem?_map, Option.map_map]
    cases c.val[i]? <;> simp [Value.text_str]
  | values c => simp [Row.cellLength, Row.cells]
  | separator => rfl

theorem raiseRow_getElem? {N : Nat} (f : FmtFlags) (W : List Nat) (row : Row N)
    (hW : W.length = N) (i : Nat) :
    (raiseRow f W row)[i]?
      = W[i]?.map fun w =>
          match row.cellLength f i with
          | some l => max w l
          | none => w := by
  rw [Row.cellLength_eq]
  cases hc : row.cells with
  | none => simp [raiseRow, hc]
  | some vs =>
    have hvs := Row.cells_length hc
    simp only [raiseRow, hc, List.getElem?_zipWith, List.getElem?_map, Option.some_bind]
    by_cases hi : i < N
    · have h1 : W[i]? = some W[i] := List.getElem?_eq_getElem (by omega)
      have h2 : vs[i]? = some vs[i] := List.getElem?_eq_getElem (by omega)
      simp [h1, h2, raise_eq_max]
    · have h1 : W[i]? = none := List.getElem?_eq_none (by omega)
      simp [h1]

theorem foldl_raiseRow_getElem? {N : Nat} (f : FmtFlags) :
    ∀ (rows : List (Row N)) (W : List Nat), W.length = N → ∀ i : Nat,
      (rows.foldl (raiseRow f) W)[i]? = W[i]?.map fun w => max w (specWidth f rows i) := by
  intro rows
  induction rows with
  | nil =>
    intro W _ i
    simp only [List.foldl_nil, specWidth, List.filterMap_nil, List.foldr_nil]
    cases W[i]? <;> simp
  | cons row rest ih =>
    intro W hW i
    rw [List.foldl_cons, ih _ (raiseRow_length f W row hW), raiseRow_getElem? f W row hW,
      specWidth_cons]
    cases W[i]? with
    | none => rfl
    | some w =>
      cases row.cellLength f i with
      | none => rfl
      | some l => simp [Nat.max_assoc]

/-- The widths `get()` computes, column by column: the fold of `raiseRow` from zeros is
the maximum of the specification. -/
theorem foldl_raiseRow_eq_spec {N : Nat} (f : FmtFlags) (rows : List (Row N)) :
    rows.foldl (raiseRow f) (List.replicate N 0) = (List.range N).map (specWidth f rows) := by
  apply List.ext_getElem?
  intro i
  rw [foldl_raiseRow_getElem? f rows _ (by simp)]
  by_cases hi : i < N
  · simp [List.getElem?_replicate, hi, List.getElem?_range hi]
  · have h1 : (List.replicate N 0)[i]? = none := List.getElem?_eq_none (by simp; omega)
    have h2 : ((List.range N).map (specWidth f rows))[i]? = none :=
      List.getElem?_eq_none (by simp; omega)
    rw [h1, h2]
    rfl

theorem le_foldr_max : ∀ (l : List Nat) (x : Nat), x ∈ l → x ≤ l.foldr max 0 := by
  intro l
  induction l with
  | nil => intro x h; simp at h
  | cons a l ih =>
    intro x h
    simp only [List.mem_cons] at h
    simp only [List.foldr_cons]
    rcases h with h | h
    · omega
    · have := ih x h
      omega

/-- No cell is longer than the width of its column. -/
theorem fits_spec {N : Nat} (f : FmtFlags) (rows : List (Row N)) (row : Row N)
    (hrow : row ∈ rows) (vs : List Value) (hc : row.cells = some vs) :
    Fits f ((List.range N).map (specWidth f rows)) vs := by
  have hvs := Row.cells_length hc
  unfold Fits
  rw [List.forall₂_iff_get]
  refine ⟨by simp [hvs], ?_⟩
  intro i h1 h2
  simp only [List.get_eq_getElem, List.getElem_map, List.getElem_range]
  apply le_foldr_max
  rw [List.mem_filterMap]
  refine ⟨row, hrow, ?_⟩
  rw [Row.cellLength_eq, hc]
  simp [List.getElem?_eq_getElem h2]

theorem block_flatten (L : Nat) :
    ∀ (lines : List (List Char)) (k : Nat) (l : List Char),
      (∀ x ∈ lines, x.length = L) → lines[k]? = some l → block lines.flatten L k = l := by
  intro lines
  induction lines with
  | nil => intro k l _ h; simp at h
  | cons x rest ih =>
    intro k l hall hk
    have hx : x.length = L := hall x (by simp)
    cases k with
    | zero =>
      simp only [List.getElem?_cons_zero, Option.some.injEq] at hk
      subst hk
      simp [block, List.take_left' hx]
    | succ k =>
      simp only [List.getElem?_cons_succ] at hk
      have := ih k l (fun y hy => hall y (by simp [hy])) hk
      unfold block at this ⊢
      rw [List.flatten_cons, show (k + 1) * L = x.length + k * L by rw [hx]; ring,
        List.drop_append]
      exact this

end SpecWidthLemmas

section Summary

open SimpleTable

/-- The text `rendering` isolates is the text `apply_streamify_row` writes anywhere. -/
theorem rendering_eq {N : Nat} (flags : FmtFlags) (precision : Int) (W : List Nat)
    (hW : W.length = N) (row : Row N) :
    rendering flags precision W row = rowText (FmtFlags.init.union flags) W row := by
  have h := apply_streamify_row_eq W row (SimpleTable.new N flags precision).stream hW rfl
    (Nat.le_refl _)
  unfold rendering
  rw [h]
  simp [OStringStream.str, OStringStream.write, OStringStream.setFill, SimpleTable.new,
    OStringStream.init, OStringStream.setf, OStringStream.setPrecision]

/-- The call `get()` on a reachable object, in terms of the widths of the specification. -/
theorem get_reachable {N : Nat} {flags : FmtFlags} {precision : Int} {t : SimpleTable N}
    (ht : Reachable flags precision t) :
    t.get_widths = some ((List.range N).map (specWidth t.stream.flags t.rows)) ∧
    ∃ t', t.get = some
        (rowText t.stream.flags ((List.range N).map (specWidth t.stream.flags t.rows))
            (Row.separator : Row N) ++
          (t.rows.map (rowText t.stream.flags
            ((List.range N).map (specWidth t.stream.flags t.rows)))).flatten ++
          rowText t.stream.flags ((List.range N).map (specWidth t.stream.flags t.rows))
            (Row.separator : Row N), t') ∧
      t'.rows = t.rows ∧ Reachable flags precision t' := by
  obtain ⟨h1, s3, h2, _⟩ := get_eq t ht.stream_inv.1
  rw [foldl_raiseRow_eq_spec] at h1 h2
  exact ⟨h1, _, h2, rfl, Reachable.get ht h2⟩

/-- With at least one column every row of a reachable table is rendered in
`lineLength + 1` characters. -/
theorem rowText_length {N : Nat} (hN : 0 < N) (f : FmtFlags) (rows : List (Row N))
    (row : Row N) (hrow : row ∈ rows ∨ row = Row.separator) :
    (rowText f ((List.range N).map (specWidth f rows)) row).length
      = lineLength ((List.range N).map (specWidth f rows)) + 1 := by
  have hW : ((List.range N).map (specWidth f rows)).length = N := by simp
  cases hc : row.cells with
  | none =>
    rw [Row.cells_eq_none hc, rowText_separator hN f _ hW, sepLine_length]
  | some vs =>
    have hmem : row ∈ rows := by
      rcases hrow with h | h
      · exact h
      · rw [h] at hc
        simp [Row.cells] at hc
    rw [rowText_data hN f _ hW row vs hc, fieldLine_length f _ vs (fits_spec f rows row hmem vs hc)]

/-- The lines of the output: a separator, the rows, a separator. -/
theorem get_lines {N : Nat} (hN : 0 < N) {flags : FmtFlags} {precision : Int}
    {t : SimpleTable N} (ht : Reachable flags precision t) :
    ∃ t', t.get = some
        ((sepLine ((List.range N).map (specWidth t.stream.flags t.rows)) ::
          (t.rows.map (rowText t.stream.flags
            ((List.range N).map (specWidth t.stream.flags t.rows))) ++
          [sepLine ((List.range N).map (specWidth t.stream.flags t.rows))])).flatten, t') ∧
      (∀ x ∈ sepLine ((List.range N).map (specWidth t.stream.flags t.rows)) ::
          (t.rows.map (rowText t.stream.flags
            ((List.range N).map (specWidth t.stream.flags t.rows))) ++
          [sepLine ((List.range N).map (specWidth t.stream.flags t.rows))]),
        x.length = lineLength ((List.range N).map (specWidth t.stream.flags t.rows)) + 1) := by
  obtain ⟨_, t', h, _⟩ := get_reachable ht
  have hW : ((List.range N).map (specWidth t.stream.flags t.rows)).length = N := by simp
  rw [rowText_separator hN _ _ hW] at h
  refine ⟨t', by simpa using h, ?_⟩
  intro x hx
  simp only [List.mem_cons, List.mem_append, List.mem_map, List.mem_singleton,
    List.not_mem_nil, or_false] at hx
  rcases hx with hx | ⟨row, hrow, hx⟩ | hx
  · rw [hx, sepLine_length]
  · rw [← hx]
    exact rowText_length hN _ _ row (Or.inl hrow)
  · rw [hx, sepLine_length]

theorem flatten_lines_length (L : Nat) (lines : List (List Char))
    (h : ∀ x ∈ lines, x.length = L) : lines.flatten.length = lines.length * L := by
  induction lines with
  | nil => simp
  | cons x rest ih =>
    have hx := h x (by simp)
    have hr := ih fun y hy => h y (by simp [hy])
    simp only [List.flatten_cons, List.length_append, List.length_cons, hx, hr]
    ring

/-- The separator runs of the output of `get()`. -/
theorem separator_blocks {N : Nat} (hN : 0 < N) {flags : FmtFlags} {precision : Int}
    {t : SimpleTable N} (ht : Reachable flags precision t) :
    ∃ W out t', t.get_widths = some W ∧ t.get = some (out, t') ∧
      out.length = (t.rows.length + 2) * (lineLength W + 1) ∧
      block out (lineLength W + 1) 0 = sepLine W ∧
      block out (lineLength W + 1) (t.rows.length + 1) = sepLine W ∧
      ∀ k : Nat, t.rows[k]? = some Row.separator →
        block out (lineLength W + 1) (k + 1) = sepLine W := by
  obtain ⟨t', hget, hlen⟩ := get_lines hN ht
  have hW : ((List.range N).map (specWidth t.stream.flags t.rows)).length = N := by simp
  refine ⟨_, _, t', (get_reachable ht).1, hget, ?_, ?_, ?_, ?_⟩
  · rw [flatten_lines_length _ _ hlen]
    simp
  · exact block_flatten _ _ _ _ hlen (by simp)
  · apply block_flatten _ _ _ _ hlen
    rw [List.getElem?_cons_succ, List.getElem?_append_right (by simp)]
    simp
  · intro k hk
    apply block_flatten _ _ _ _ hlen
    have hkl : k < t.rows.length := by
      by_contra hcon
      rw [List.getElem?_eq_none (by omega)] at hk
      simp at hk
    rw [List.getElem?_cons_succ, List.getElem?_append_left (by simpa using hkl),
      List.getElem?_map, hk, Option.map_some', rowText_separator hN _ _ hW]

/-- The string `get()` returns is settled by the flags and the rows alone, as soon as the
field width is 0 on entry: buffer, put position, fill character and precision of the
stream play no part. -/
theorem get_out_congr {N : Nat} (t1 t2 : SimpleTable N) (h1 : t1.stream.width = 0)
    (h2 : t2.stream.width = 0) (hf : t1.stream.flags = t2.stream.flags)
    (hr : t1.rows = t2.rows) :
    t1.get.map Prod.fst = t2.get.map Prod.fst := by
  obtain ⟨_, s1, e1, _⟩ := get_eq t1 h1
  obtain ⟨_, s2, e2, _⟩ := get_eq t2 h2
  rw [e1, e2, hf, hr]
  rfl

theorem foldl_addRow {N : Nat} :
    ∀ (rows : List (Row N)) (t : SimpleTable N),
      (rows.foldl addRow t).rows = t.rows ++ rows ∧ (rows.foldl addRow t).stream = t.stream := by
  intro rows
  induction rows with
  | nil => intro t; simp
  | cons row rest ih =>
    intro t
    obtain ⟨h1, h2⟩ := ih (t.addRow row)
    rw [List.foldl_cons, h1, h2]
    cases row <;> simp [addRow, SimpleTable.addStrings, SimpleTable.add, SimpleTable.addSeparator]

theorem addRow_rows {N : Nat} (t : SimpleTable N) (row : Row N) :
    (t.addRow row).rows = t.rows ++ [row] ∧ (t.addRow row).stream = t.stream := by
  cases row <;> simp [addRow, SimpleTable.addStrings, SimpleTable.add, SimpleTable.addSeparator]

theorem SimpleTable.Reachable.addRow {N : Nat} {flags : FmtFlags} {precision : Int}
    {t : SimpleTable N} (ht : Reachable flags precision t) (row : Row N) :
    Reachable flags precision (t.addRow row) := by
  cases row with
  | strings c => exact Reachable.addStrings c ht
  | values c => exact Reachable.add c ht
  | separator => exact Reachable.addSeparator ht

theorem specWidth_of_separators {N : Nat} (f : FmtFlags) (rows : List (Row N))
    (h : ∀ row ∈ rows, row = Row.separator) (i : Nat) : specWidth f rows i = 0 := by
  induction rows with
  | nil => rfl
  | cons row rest ih =>
    rw [specWidth_cons, h row (by simp)]
    exact ih fun r hr => h r (by simp [hr])

theorem foldr_max_append (l : List Nat) (x : Nat) :
    (l ++ [x]).foldr max 0 = max (l.foldr max 0) x := by
  induction l with
  | nil => simp
  | cons a l ih =>
    simp only [List.cons_append, List.foldr_cons, ih]
    omega

theorem specWidth_append {N : Nat} (f : FmtFlags) (rows : List (Row N)) (R : Row N) (i : Nat) :
    specWidth f (rows ++ [R]) i
      = match R.cellLength f i with
        | some l => max (specWidth f rows i) l
        | none => specWidth f rows i := by
  unfold specWidth
  rw [List.filterMap_append]
  cases h : R.cellLength f i with
  | none => simp [List.filterMap_cons, h]
  | some l =>
    have hR : List.filterMap (Row.cellLength f i) [R] = [l] := by
      simp [List.filterMap_cons, h]
    rw [hR, foldr_max_append]

theorem Row.cellLength_eq_texts {N : Nat} (f : FmtFlags) (i : Nat) (row : Row N) :
    row.cellLength f i = (row.texts f).bind fun texts => texts[i]?.map List.length := by
  cases row with
  | strings c => rfl
  | values c =>
    simp only [Row.cellLength, Row.texts, Option.some_bind, List.getElem?_map, Option.map_map]
    rfl
  | separator => rfl

theorem Row.texts_length {N : Nat} {f : FmtFlags} {row : Row N} {texts : List (List Char)}
    (h : row.texts f = some texts) : texts.length = N := by
  cases row with
  | strings c =>
    simp only [Row.texts, Option.some.injEq] at h
    rw [← h, c.property]
  | values c =>
    simp only [Row.texts, Option.some.injEq] at h
    rw [← h, List.length_map, c.property]
  | separator => simp [Row.texts] at h

/-- A row whose cells fit the widths of the rows before it leaves every width as it is. -/
theorem specWidth_append_of_fits {N : Nat} (f : FmtFlags) (rows : List (Row N)) (R : Row N)
    (hfit : ∀ texts, R.texts f = some texts →
      List.Forall₂ (fun w (text : List Char) => text.length ≤ w)
        ((List.range N).map (specWidth f rows)) texts)
    (i : Nat) (hi : i < N) : specWidth f (rows ++ [R]) i = specWidth f rows i := by
  rw [specWidth_append, Row.cellLength_eq_texts]
  cases ht : R.texts f with
  | none => rfl
  | some texts =>
    have hlen := Row.texts_length ht
    have h := (List.forall₂_iff_get.mp (hfit texts ht)).2 i (by simpa using hi) (by omega)
    simp only [List.get_eq_getElem, List.getElem_map, List.getElem_range] at h
    have hget : texts[i]? = some texts[i] := List.getElem?_eq_getElem (by omega)
    simp only [Option.some_bind, hget, Option.map_some']
    exact max_eq_left h

end Summary

section LineBodies

open SimpleTable

theorem mem_padField {f : FmtFlags} {w : Nat} {c x : Char} {p : List Char × List Char}
    (h : x ∈ padField f w c p) : x = c ∨ x ∈ p.1 ++ p.2 := by
  unfold padField at h
  generalize f.adjust = a at h
  cases a <;> simp only [List.mem_append, List.mem_replicate] at h ⊢ <;> tauto

theorem mem_fields {f : FmtFlags} {x : Char} :
    ∀ (W : List Nat) (vs : List Value),
      x ∈ (List.zipWith (fun w v => [' '] ++ padField f w ' ' (v.pieces f) ++ [' '] ++ ['|'])
        W vs).flatten → x = ' ' ∨ x = '|' ∨ ∃ v ∈ vs, x ∈ v.text f := by
  intro W
  induction W with
  | nil => intro vs h; simp at h
  | cons w W ih =>
    intro vs h
    cases vs with
    | nil => simp at h
    | cons v vs =>
      simp only [List.zipWith_cons_cons, List.flatten_cons, List.mem_append,
        List.mem_singleton] at h
      rcases h with ((((h | h) | h) | h) | h)
      · exact Or.inl h
      · rcases mem_padField h with h | h
        · exact Or.inl h
        · exact Or.inr (Or.inr ⟨v, by simp, h⟩)
      · exact Or.inl h
      · exact Or.inr (Or.inl h)
      · rcases ih vs h with h | h | ⟨v2, hv2, h⟩
        · exact Or.inl h
        · exact Or.inr (Or.inl h)
        · exact Or.inr (Or.inr ⟨v2, by simp [hv2], h⟩)

theorem newline_not_mem_sepBody (W : List Nat) :
    '\n' ∉ '+' :: (W.map fun w => List.replicate (w + 2) '-' ++ ['+']).flatten := by
  intro h
  simp only [List.mem_cons, List.mem_flatten, List.mem_map] at h
  rcases h with h | ⟨l, ⟨w, _, hl⟩, h⟩
  · exact absurd h (by decide)
  · rw [← hl] at h
    simp only [List.mem_append, List.mem_replicate, List.mem_singleton] at h
    rcases h with ⟨_, h⟩ | h
    · exact absurd h (by decide)
    · exact absurd h (by decide)

theorem sepLine_eq_body (W : List Nat) :
    sepLine W = ('+' :: (W.map fun w => List.replicate (w + 2) '-' ++ ['+']).flatten) ++ ['\n'] := by
  simp [sepLine]

theorem fieldLine_eq_body (f : FmtFlags) (W : List Nat) (vs : List Value) :
    fieldLine f W vs
      = ('|' :: (List.zipWith (fun w v => [' '] ++ padField f w ' ' (v.pieces f) ++ [' '] ++ ['|'])
          W vs).flatten) ++ ['\n'] := by
  simp [fieldLine]

/-- With at least one column, the text of a row of a reachable table whose cells hold no
newline is a line of `lineLength` characters without newline, followed by a newline. -/
theorem rowText_body {N : Nat} (hN : 0 < N) (f : FmtFlags) (rows : List (Row N))
    (hnl : ∀ row ∈ rows, ∀ texts, row.texts f = some texts → ∀ x ∈ texts, '\n' ∉ x)
    (row : Row N) (hrow : row ∈ rows ∨ row = Row.separator) :
    ∃ body, rowText f ((List.range N).map (specWidth f rows)) row = body ++ ['\n'] ∧
      '\n' ∉ body ∧ body.length = lineLength ((List.range N).map (specWidth f rows)) := by
  have hW : ((List.range N).map (specWidth f rows)).length = N := by simp
  have hlen := rowText_length hN f rows row hrow
  cases hc : row.cells with
  | none =>
    rw [Row.cells_eq_none hc, rowText_separator hN f _ hW] at hlen ⊢
    rw [sepLine_eq_body] at hlen ⊢
    refine ⟨_, rfl, newline_not_mem_sepBody _, ?_⟩
    rw [List.length_append] at hlen
    simpa using hlen
  | some vs =>
    have hmem : row ∈ rows := by
      rcases hrow with h | h
      · exact h
      · rw [h] at hc
        simp [Row.cells] at hc
    rw [rowText_data hN f _ hW row vs hc] at hlen ⊢
    rw [fieldLine_eq_body] at hlen ⊢
    refine ⟨_, rfl, ?_, ?_⟩
    · intro h
      simp only [List.mem_cons] at h
      rcases h with h | h
      · exact absurd h (by decide)
      · rcases mem_fields _ _ h with h | h | ⟨v, hv, h⟩
        · exact absurd h (by decide)
        · exact absurd h (by decide)
        · refine hnl row hmem (vs.map (Value.text f)) ?_ (v.text f) ?_ h
          · rw [Row.texts_eq, hc]
            rfl
          · exact List.mem_map_of_mem _ hv
    · rw [List.length_append] at hlen
      simpa using hlen

theorem exists_lines (P : List Char → Prop) :
    ∀ texts : List (List Char), (∀ x ∈ texts, ∃ b, x = b ++ ['\n'] ∧ P b) →
      ∃ lines : List (List Char), texts = lines.map (fun l => l ++ ['\n']) ∧
        ∀ l ∈ lines, P l := by
  intro texts
  induction texts with
  | nil => intro _; exact ⟨[], rfl, by simp⟩
  | cons x rest ih =>
    intro h
    obtain ⟨b, hb, hP⟩ := h x (by simp)
    obtain ⟨lines, hl, hall⟩ := ih fun y hy => h y (by simp [hy])
    refine ⟨b :: lines, by simp [hb, hl], ?_⟩
    intro l hl2
    simp only [List.mem_cons] at hl2
    rcases hl2 with h1 | h1
    · rw [h1]; exact hP
    · exact hall l h1

end LineBodies

section Justification

open SimpleTable

/-- The runs of the output of `get()` on a reachable table with at least one column, with
the widths of the specification: separators and rows, under every configuration. -/
theorem blocks_reachable {N : Nat} (hN : 0 < N) {flags : FmtFlags} {precision : Int}
    {t : SimpleTable N} (ht : Reachable flags precision t) :
    ∃ out t', t.get_widths = some ((List.range N).map (specWidth t.stream.flags t.rows)) ∧
      t.get = some (out, t') ∧
      block out (lineLength ((List.range N).map (specWidth t.stream.flags t.rows)) + 1) 0
        = sepLine ((List.range N).map (specWidth t.stream.flags t.rows)) ∧
      block out (lineLength ((List.range N).map (specWidth t.stream.flags t.rows)) + 1)
          (t.rows.length + 1)
        = sepLine ((List.range N).map (specWidth t.stream.flags t.rows)) ∧
      (∀ k : Nat, t.rows[k]? = some Row.separator →
        block out (lineLength ((List.range N).map (specWidth t.stream.flags t.rows)) + 1) (k + 1)
          = sepLine ((List.range N).map (specWidth t.stream.flags t.rows))) ∧
      ∀ (k : Nat) (row : Row N) (vs : List Value), t.rows[k]? = some row → row.cells = some vs →
        block out (lineLength ((List.range N).map (specWidth t.stream.flags t.rows)) + 1) (k + 1)
          = fieldLine t.stream.flags ((List.range N).map (specWidth t.stream.flags t.rows)) vs := by
  obtain ⟨t', hget, hlen⟩ := get_lines hN ht
  have hW : ((List.range N).map (specWidth t.stream.flags t.rows)).length = N := by simp
  have hlt : ∀ (k : Nat) (row : Row N), t.rows[k]? = some row → k < t.rows.length := by
    intro k row hk
    by_contra hcon
    rw [List.getElem?_eq_none (by omega)] at hk
    simp at hk
  refine ⟨_, t', (get_reachable ht).1, hget, ?_, ?_, ?_, ?_⟩
  · exact block_flatten _ _ _ _ hlen (by simp)
  · apply block_flatten _ _ _ _ hlen
    rw [List.getElem?_cons_succ, List.getElem?_append_right (by simp)]
    simp
  · intro k hk
    apply block_flatten _ _ _ _ hlen
    rw [List.getElem?_cons_succ, List.getElem?_append_left (by simpa using hlt k _ hk),
      List.getElem?_map, hk, Option.map_some', rowText_separator hN _ _ hW]
  · intro k row vs hk hc
    apply block_flatten _ _ _ _ hlen
    rw [List.getElem?_cons_succ, List.getElem?_append_left (by simpa using hlt k _ hk),
      List.getElem?_map, hk, Option.map_some', rowText_data hN _ _ hW row vs hc]

/-- Under left adjustment a field is the text followed by the missing fill characters. -/
theorem fieldLine_left (f : FmtFlags) (hf : f.adjust = Adjust.left) (W : List Nat)
    (vs : List Value) : fieldLine f W vs = leftLine W (vs.map (Value.text f)) := by
  have hg : (fun (w : Nat) (v : Value) => [' '] ++ padField f w ' ' (v.pieces f) ++ [' '] ++ ['|'])
      = fun w v =>
        [' '] ++ v.text f ++ List.replicate (w - (v.text f).length) ' ' ++ [' ', '|'] := by
    funext w v
    simp [padField, hf, Value.text]
  simp only [fieldLine, leftLine, List.zipWith_map_right, hg]

/-- The text of a value does not depend on the adjustment bits. -/
theorem Value.pieces_congr (f g : FmtFlags) (hb : f.base = g.base)
    (h1 : f.showbase = g.showbase) (h2 : f.uppercase = g.uppercase)
    (h3 : f.showpos = g.showpos) (v : Value) : v.pieces f = v.pieces g := by
  cases v with
  | str s => rfl
  | int i => simp only [Value.pieces, hb, h1, h2, h3]

theorem Row.cellLength_congr {N : Nat} (f g : FmtFlags) (h : ∀ v : Value, v.text f = v.text g)
    (i : Nat) (row : Row N) : row.cellLength f i = row.cellLength g i := by
  cases row with
  | strings c => rfl
  | values c => simp only [Row.cellLength, h]
  | separator => rfl

theorem specWidth_congr {N : Nat} (f g : FmtFlags) (h : ∀ v : Value, v.text f = v.text g)
    (rows : List (Row N)) (i : Nat) : specWidth f rows i = specWidth g rows i := by
  have : (Row.cellLength f i : Row N → Option Nat) = Row.cellLength g i := by
    funext row
    exact Row.cellLength_congr f g h i row
  unfold specWidth
  rw [this]

theorem Row.texts_congr {N : Nat} (f g : FmtFlags) (h : ∀ v : Value, v.text f = v.text g)
    (row : Row N) : row.texts f = row.texts g := by
  cases row with
  | strings c => rfl
  | values c =>
    have hfun : Value.text f = Value.text g := funext h
    simp only [Row.texts, hfun]
  | separator => rfl

/-- Under internal adjustment a field is the sign, the missing fill characters, and the
rest of the text. -/
theorem fieldLine_internal (f : FmtFlags) (hf : f.adjust = Adjust.internal) (W : List Nat)
    (vs : List Value) : fieldLine f W vs = internalLine W (vs.map (Value.pieces f)) := by
  have hg : (fun (w : Nat) (v : Value) => [' '] ++ padField f w ' ' (v.pieces f) ++ [' '] ++ ['|'])
      = fun w v =>
        [' '] ++ (v.pieces f).1
          ++ List.replicate (w - ((v.pieces f).1.length + (v.pieces f).2.length)) ' '
          ++ (v.pieces f).2 ++ [' ', '|'] := by
    funext w v
    simp [padField, hf]
  simp only [fieldLine, internalLine, List.zipWith_map_right, hg]

/-- With at least one column the characters `apply_streamify_row` inserts for a row are
the line of the specification. -/
theorem rowText_eq_rowLine {N : Nat} (hN : 0 < N) (f : FmtFlags) (W : List Nat)
    (hW : W.length = N) (row : Row N) : rowText f W row = rowLine f W row := by
  cases row with
  | separator => exact rowText_separator hN f W hW
  | strings c =>
    rw [rowText_data hN f W hW (Row.strings c) (c.val.map Value.str) rfl]
    have htext : (c.val.map Value.str).map (Value.text f) = c.val := by
      rw [List.map_map]
      have : (Value.text f ∘ Value.str) = id := by
        funext x
        simp [Value.text_str]
      rw [this, List.map_id]
    have hpieces : (c.val.map Value.str).map (Value.pieces f)
        = c.val.map fun text => (([], text) : List Char × List Char) := by
      rw [List.map_map]
      rfl
    cases hf : f.adjust with
    | left => simp only [rowLine, hf]; rw [fieldLine_left f hf, htext]
    | internal => simp only [rowLine, hf]; rw [fieldLine_internal f hf, hpieces]
    | right => simp only [rowLine, hf]; rw [fieldLine_right f hf, htext]
  | values c =>
    rw [rowText_data hN f W hW (Row.values c) c.val rfl]
    cases hf : f.adjust with
    | left => simp only [rowLine, hf]; rw [fieldLine_left f hf]
    | internal => simp only [rowLine, hf]; rw [fieldLine_internal f hf]
    | right => simp only [rowLine, hf]; rw [fieldLine_right f hf]

end Justification

section Totality

open SimpleTable

/-- The width fold fails exactly when one of the indices it uses lies outside `widths`. -/
theorem compute_widths_ne_none_iff :
    ∀ (vs : List Value) (index : Nat) (W : List Nat) (s : OStringStream),
      compute_widths vs index W s ≠ none ↔ ∀ i ∈ accessed vs index, i < W.length := by
  intro vs
  induction vs with
  | nil => intro index W s; simp [compute_widths, accessed]
  | cons v rest ih =>
    intro index W s
    by_cases hi : index < W.length
    · have hget : W[index]? = some W[index] := List.getElem?_eq_getElem hi
      simp only [compute_widths, hget, accessed, List.mem_cons, forall_eq_or_imp, hi, true_and]
      rw [ih]
      split <;> simp
    · have hget : W[index]? = none := List.getElem?_eq_none (by omega)
      simp only [compute_widths, hget, accessed, List.mem_cons, forall_eq_or_imp, hi, false_and]
      simp

/-- The render fold fails exactly when one of the indices it uses lies outside `widths`. -/
theorem streamify_cells_ne_none_iff (N : Nat) (sep pad : List Char) (W : List Nat) :
    ∀ (vs : List Value) (index : Nat) (s : OStringStream),
      streamify_cells N sep pad W vs index s ≠ none ↔ ∀ i ∈ accessed vs index, i < W.length := by
  intro vs
  induction vs with
  | nil => intro index s; simp [streamify_cells, accessed]
  | cons v rest ih =>
    intro index s
    by_cases hi : index < W.length
    · have hget : W[index]? = some W[index] := List.getElem?_eq_getElem hi
      simp only [streamify_cells, hget, accessed, List.mem_cons, forall_eq_or_imp, hi, true_and]
      rw [ih]
    · have hget : W[index]? = none := List.getElem?_eq_none (by omega)
      simp only [streamify_cells, hget, accessed, List.mem_cons, forall_eq_or_imp, hi,
        false_and]
      simp

/-- The `k`-th cell of a row uses the index `index + k`. -/
theorem accessed_eq_range' :
    ∀ (vs : List Value) (index : Nat), accessed vs index = List.range' index vs.length := by
  intro vs
  induction vs with
  | nil => intro index; rfl
  | cons v rest ih =>
    intro index
    simp [accessed, ih, List.range'_succ]

theorem accessed_eq_range {N : Nat} (vs : List Value) (h : vs.length = N) :
    accessed vs 0 = List.range N := by
  rw [accessed_eq_range', h, List.range_eq_range']

end Totality

section ProbeText

open SimpleTable

/-- The buffer the width fold leaves: every cell text was written at the start of what
was there. -/
theorem compute_widths_buf :
    ∀ (vs : List Value) (index : Nat) (W : List Nat) (s : OStringStream)
      (r : List Nat × OStringStream), s.width = 0 → s.pos = 0 →
      compute_widths vs index W s = some r →
      r.2.buf = probeBuf s.buf (vs.map (Value.text s.flags)) ∧ r.2.flags = s.flags ∧
        r.2.width = 0 ∧ r.2.pos = 0 := by
  intro vs
  induction vs with
  | nil =>
    intro index W s r hw hp h
    simp only [compute_widths, Option.some.injEq] at h
    subst h
    exact ⟨rfl, rfl, hw, hp⟩
  | cons v rest ih =>
    intro index W s r hw hp h
    obtain ⟨_, hseek⟩ := probe_eq s v hw hp
    simp only [compute_widths, hseek] at h
    cases hget : W[index]? with
    | none => simp [hget] at h
    | some w =>
      simp only [hget] at h
      have hw1 : ({ s with buf := v.text s.flags ++ s.buf.drop (v.text s.flags).length } :
          OStringStream).width = 0 := hw
      have hp1 : ({ s with buf := v.text s.flags ++ s.buf.drop (v.text s.flags).length } :
          OStringStream).pos = 0 := hp
      obtain ⟨h1, h2, h3, h4⟩ := ih _ _
        { s with buf := v.text s.flags ++ s.buf.drop (v.text s.flags).length } r hw1 hp1 h
      exact ⟨by rw [h1]; rfl, h2, h3, h4⟩

theorem probeTexts_cons {N : Nat} (f : FmtFlags) (row : Row N) (rest : List (Row N)) :
    probeTexts f (row :: rest)
      = match row.cells with
        | some vs => vs.map (Value.text f) ++ probeTexts f rest
        | none => probeTexts f rest := by
  unfold probeTexts
  rw [List.filterMap_cons, Row.texts_eq]
  cases row.cells <;> simp

/-- The buffer the width pass leaves: the cell texts of all rows, written one after the
other at the start of what was there. -/
theorem compute_all_buf {N : Nat} :
    ∀ (rows : List (Row N)) (W : List Nat) (s : OStringStream)
      (r : List Nat × OStringStream), s.width = 0 → s.pos = 0 →
      compute_all rows W s = some r →
      r.2.buf = probeBuf s.buf (probeTexts s.flags rows) ∧ r.2.flags = s.flags ∧
        r.2.width = 0 ∧ r.2.pos = 0 := by
  intro rows
  induction rows with
  | nil =>
    intro W s r hw hp h
    simp only [compute_all, Option.some.injEq] at h
    subst h
    exact ⟨rfl, rfl, hw, hp⟩
  | cons row rest ih =>
    intro W s r hw hp h
    simp only [compute_all] at h
    cases h1 : apply_compute_widths row W s with
    | none => simp [h1] at h
    | some r1 =>
      simp only [h1] at h
      rw [probeTexts_cons]
      cases hc : row.cells with
      | none =>
        simp only [apply_compute_widths, hc, Option.some.injEq] at h1
        subst h1
        exact ih _ _ r hw hp h
      | some vs =>
        simp only [apply_compute_widths, hc] at h1
        obtain ⟨b1, f1, w1, p1⟩ := compute_widths_buf vs 0 W s r1 hw hp h1
        obtain ⟨b2, f2, w2, p2⟩ := ih _ _ r w1 p1 h
        refine ⟨?_, f2.trans f1, w2, p2⟩
        rw [b2, b1, f1]
        simp [probeBuf, List.foldl_append]

theorem le_sum_of_mem : ∀ (W : List Nat) (x : Nat), x ∈ W → x ≤ W.sum := by
  intro W
  induction W with
  | nil => intro x h; simp at h
  | cons a W ih =>
    intro x h
    simp only [List.mem_cons] at h
    simp only [List.sum_cons]
    rcases h with h | h
    · omega
    · have := ih x h
      omega

theorem sum_lt_sepLine_length (W : List Nat) : W.sum < (sepLine W).length := by
  have h : W.sum ≤ (W.map fun w => w + 3).sum := by
    induction W with
    | nil => simp
    | cons a W ih =>
      simp only [List.map_cons, List.sum_cons]
      omega
  rw [sepLine_length]
  unfold lineLength
  omega

theorem exists_width_of_fits (f : FmtFlags) (W : List Nat) (vs : List Value)
    (h : Fits f W vs) (v : Value) (hv : v ∈ vs) : ∃ w ∈ W, (v.text f).length ≤ w := by
  unfold Fits at h
  induction h with
  | nil => simp at hv
  | @cons w v1 W1 vs1 hwv _ ih =>
    simp only [List.mem_cons] at hv
    rcases hv with hv | hv
    · exact ⟨w, by simp, by rw [hv]; exact hwv⟩
    · obtain ⟨w2, hw2, hle⟩ := ih hv
      exact ⟨w2, by simp [hw2], hle⟩

/-- Every probe is shorter than a separator line. -/
theorem probeText_lt_sepLine {N : Nat} (f : FmtFlags) (rows : List (Row N))
    (text : List Char) (h : text ∈ probeTexts f rows) :
    text.length < (sepLine ((List.range N).map (specWidth f rows))).length := by
  unfold probeTexts at h
  simp only [List.mem_flatten, List.mem_filterMap] at h
  obtain ⟨texts, ⟨row, hrow, htexts⟩, hmem⟩ := h
  rw [Row.texts_eq] at htexts
  cases hc : row.cells with
  | none => simp [hc] at htexts
  | some vs =>
    simp only [hc, Option.map_some', Option.some.injEq] at htexts
    rw [← htexts, List.mem_map] at hmem
    obtain ⟨v, hv, hvt⟩ := hmem
    obtain ⟨w, hw, hle⟩ := exists_width_of_fits f _ vs (fits_spec f rows row hrow vs hc) v hv
    have h1 := le_sum_of_mem _ w hw
    have h2 := sum_lt_sepLine_length ((List.range N).map (specWidth f rows))
    rw [← hvt]
    omega

/-- The string `get()` returns is the whole buffer of the stream it leaves. -/
theorem get_str {N : Nat} (t t' : SimpleTable N) (out : List Char)
    (h : t.get = some (out, t')) : t'.stream.str = out := by
  unfold SimpleTable.get at h
  split at h
  · simp at h
  · split at h
    · simp at h
    · split at h
      · simp at h
      · split at h
        · simp at h
        · simp only [Option.some.injEq, Prod.mk.injEq] at h
          rw [← h.2]
          exact h.1

end ProbeText

section RowKind

open SimpleTable

/-- Unless the adjustment is `internal`, a padded field depends on the text alone, not on
where its sign ends. -/
theorem padField_text (f : FmtFlags) (w : Nat) (c : Char) (p : List Char × List Char)
    (h : f.adjust ≠ Adjust.internal) : padField f w c p = padField f w c ([], p.1 ++ p.2) := by
  unfold padField
  cases hf : f.adjust with
  | left => simp
  | internal => exact absurd hf h
  | right => simp

theorem cellsText_asStrings (N : Nat) (f : FmtFlags) (c : Char) (sep pad : List Char)
    (W : List Nat) (h : f.adjust ≠ Adjust.internal) :
    ∀ (vs : List Value) (index : Nat),
      cellsText N f c sep pad W (vs.map fun v => Value.str (v.text f)) index
        = cellsText N f c sep pad W vs index := by
  intro vs
  induction vs with
  | nil => intro index; rfl
  | cons v rest ih =>
    intro index
    have hp : (Value.str (v.text f)).pieces f = ([], (v.pieces f).1 ++ (v.pieces f).2) := rfl
    simp only [List.map_cons, cellsText, ih, hp]
    rw [← padField_text f _ c (v.pieces f) h]

theorem Row.asStrings_cells {N : Nat} (f : FmtFlags) (row : Row N) :
    (row.asStrings f).cells = row.cells.map fun vs => vs.map fun v => Value.str (v.text f) := by
  cases row with
  | strings c =>
    simp only [Row.asStrings, Row.cells, Option.map_some', List.map_map, Option.some.injEq]
    apply List.map_congr_left
    intro s _
    simp [Value.text_str]
  | values c => simp [Row.asStrings, Row.cells]
  | separator => rfl

/-- Unless the adjustment is `internal`, a row and its string row are rendered alike. -/
theorem rowText_asStrings {N : Nat} (f : FmtFlags) (W : List Nat) (row : Row N)
    (h : f.adjust ≠ Adjust.internal) : rowText f W (row.asStrings f) = rowText f W row := by
  unfold rowText
  rw [Row.asStrings_cells]
  cases row.cells with
  | none => rfl
  | some vs => simp only [Option.map_some', cellsText_asStrings N f ' ' ['|'] [' '] W h vs 0]

/-- A row and its string row raise the widths alike. -/
theorem raiseRow_asStrings {N : Nat} (f : FmtFlags) (W : List Nat) (row : Row N) :
    raiseRow f W (row.asStrings f) = raiseRow f W row := by
  unfold raiseRow
  rw [Row.asStrings_cells]
  cases row.cells with
  | none => rfl
  | some vs =>
    simp only [Option.map_some', List.map_map]
    congr 1

theorem Row.asStrings_texts {N : Nat} (f : FmtFlags) (row : Row N) :
    (row.asStrings f).texts f = row.texts f := by
  cases row <;> rfl

end RowKind

section Claims

open SimpleTable

/-- C1 (width correctness). On every reachable table the array `widths` that `get()`
computes holds, for each column `i` below `N`, the maximum over all value rows and string
rows of the length of the text of the cell in column `i` (the formatted value under the
table's flags for a value row, the string itself for a string row); separators take no
part, and the maximum of nothing is 0. -/
theorem C1_width_correctness {N : Nat} (flags : FmtFlags) (precision : Int)
    (t : SimpleTable N) (ht : Reachable flags precision t) :
    t.get_widths = some ((List.range N).map (specWidth t.stream.flags t.rows)) :=
  (get_reachable ht).1

/-- Witness of C1: the table of Alice and Bob. -/
theorem C1_width_correctness_witness :
    Reachable FmtFlags.zero 6 aliceBob ∧
    aliceBob.get_widths
      = some ((List.range 2).map (specWidth aliceBob.stream.flags aliceBob.rows)) :=
  ⟨Reachable.add _ (Reachable.add _ Reachable.new),
    C1_width_correctness FmtFlags.zero 6 aliceBob
      (Reachable.add _ (Reachable.add _ Reachable.new))⟩

/-- C2 (data-row rendering). On every reachable table with at least one column that was
constructed with the default flags, `get()` succeeds, its output consists of
`rows + 2` runs of `lineLength + 1` characters, and the run of a value or string row (run
`k + 1` for the row at position `k`) is a bar, then per column a space, the cell text
preceded by `width - length` spaces, a space and a bar, then one newline.  The row before
may be a separator: the fill is a space all the same. -/
theorem C2_data_row_rendering {N : Nat} (hN : 0 < N) (precision : Int) (t : SimpleTable N)
    (ht : Reachable FmtFlags.zero precision t) (k : Nat) (row : Row N)
    (texts : List (List Char)) (hk : t.rows[k]? = some row)
    (htexts : row.texts t.stream.flags = some texts) :
    ∃ W out t', t.get_widths = some W ∧ t.get = some (out, t') ∧
      out.length = (t.rows.length + 2) * (lineLength W + 1) ∧
      block out (lineLength W + 1) (k + 1) = dataLine W texts := by
  obtain ⟨t', hget, hlen⟩ := get_lines hN ht
  refine ⟨_, _, t', (get_reachable ht).1, hget, ?_, ?_⟩
  · rw [flatten_lines_length _ _ hlen]
    simp
  · apply block_flatten _ _ _ _ hlen
    have hadj : t.stream.flags.adjust = Adjust.right := by
      rw [ht.stream_inv.2.1]
      rfl
    rw [Row.texts_eq] at htexts
    cases hc : row.cells with
    | none => simp [hc] at htexts
    | some vs =>
      simp only [hc, Option.map_some', Option.some.injEq] at htexts
      have hW : ((List.range N).map (specWidth t.stream.flags t.rows)).length = N := by simp
      have hkl : k < t.rows.length := by
        by_contra hcon
        rw [List.getElem?_eq_none (by omega)] at hk
        simp at hk
      rw [List.getElem?_cons_succ, List.getElem?_append_left (by simpa using hkl),
        List.getElem?_map, hk, Option.map_some', rowText_data hN _ _ hW row vs hc,
        fieldLine_right _ hadj, htexts]

/-- Witness of C2: the row of Bob in the table of Alice and Bob. -/
theorem C2_data_row_rendering_witness :
    (0 < 2 ∧ Reachable FmtFlags.zero 6 aliceBob ∧
      aliceBob.rows[1]? = some (Row.values ⟨[Value.str "Bob".toList, Value.int 7], rfl⟩) ∧
      (Row.values ⟨[Value.str "Bob".toList, Value.int 7], rfl⟩ : Row 2).texts
          aliceBob.stream.flags = some ["Bob".toList, "7".toList]) ∧
    ∃ W out t', aliceBob.get_widths = some W ∧ aliceBob.get = some (out, t') ∧
      out.length = (aliceBob.rows.length + 2) * (lineLength W + 1) ∧
      block out (lineLength W + 1) (1 + 1) = dataLine W ["Bob".toList, "7".toList] :=
  ⟨⟨by decide, Reachable.add _ (Reachable.add _ Reachable.new), by decide, by decide⟩,
    C2_data_row_rendering (by decide) 6 aliceBob
      (Reachable.add _ (Reachable.add _ Reachable.new)) 1
      (Row.values ⟨[Value.str "Bob".toList, Value.int 7], rfl⟩)
      ["Bob".toList, "7".toList] (by decide) (by decide)⟩

/-- C3 (separator rendering). On every reachable table with at least one column, under
every configuration, `get()` succeeds, its output consists of `rows + 2` runs of
`lineLength + 1` characters, and the first run, the last run and the run of every
separator row are a plus, then per column `width + 2` dashes and a plus, then one
newline. -/
theorem C3_separator_rendering {N : Nat} (hN : 0 < N) (flags : FmtFlags) (precision : Int)
    (t : SimpleTable N) (ht : Reachable flags precision t) :
    ∃ W out t', t.get_widths = some W ∧ t.get = some (out, t') ∧
      out.length = (t.rows.length + 2) * (lineLength W + 1) ∧
      block out (lineLength W + 1) 0 = sepLine W ∧
      block out (lineLength W + 1) (t.rows.length + 1) = sepLine W ∧
      ∀ k : Nat, t.rows[k]? = some Row.separator →
        block out (lineLength W + 1) (k + 1) = sepLine W :=
  separator_blocks hN ht

/-- Witness of C3: the table of Alice and Bob. -/
theorem C3_separator_rendering_witness :
    (0 < 2 ∧ Reachable FmtFlags.zero 6 aliceBob) ∧
    ∃ W out t', aliceBob.get_widths = some W ∧ aliceBob.get = some (out, t') ∧
      out.length = (aliceBob.rows.length + 2) * (lineLength W + 1) ∧
      block out (lineLength W + 1) 0 = sepLine W ∧
      block out (lineLength W + 1) (aliceBob.rows.length + 1) = sepLine W ∧
      ∀ k : Nat, aliceBob.rows[k]? = some Row.separator →
        block out (lineLength W + 1) (k + 1) = sepLine W :=
  ⟨⟨by decide, Reachable.add _ (Reachable.add _ Reachable.new)⟩,
    C3_separator_rendering (by decide) FmtFlags.zero 6 aliceBob
      (Reachable.add _ (Reachable.add _ Reachable.new))⟩

/-- C4 (output structure and order). On every reachable table with at least one column
`get()` succeeds and returns exactly one separator line, then the line of every stored row
in the order of insertion, once per occurrence (the separator line again for a separator
row, the data line for a value or string row), then one separator line; nothing stands
before, between or after these pieces. -/
theorem C4_output_structure {N : Nat} (hN : 0 < N) (flags : FmtFlags) (precision : Int)
    (t : SimpleTable N) (ht : Reachable flags precision t) :
    ∃ W, t.get_widths = some W ∧
      t.get.map Prod.fst = some
        (sepLine W ++ (t.rows.map (rowLine t.stream.flags W)).flatten ++ sepLine W) := by
  obtain ⟨h1, t', h2, _⟩ := get_reachable ht
  have hW : ((List.range N).map (specWidth t.stream.flags t.rows)).length = N := by simp
  refine ⟨_, h1, ?_⟩
  have hr : (rowText t.stream.flags ((List.range N).map (specWidth t.stream.flags t.rows)) :
        Row N → List Char)
      = rowLine t.stream.flags ((List.range N).map (specWidth t.stream.flags t.rows)) := by
    funext row
    exact rowText_eq_rowLine hN _ _ hW row
  rw [h2, rowText_separator hN _ _ hW, hr]
  rfl

/-- Witness of C4: the table with a heading, a separator and the rows of Alice and Bob;
its widths are 5 and 3 and the six pieces are the six lines of the output. -/
theorem C4_output_structure_witness :
    (0 < 2 ∧ Reachable FmtFlags.zero 6 nameAge) ∧
    (∃ W, nameAge.get_widths = some W ∧
      nameAge.get.map Prod.fst = some
        (sepLine W ++ (nameAge.rows.map (rowLine nameAge.stream.flags W)).flatten
          ++ sepLine W)) ∧
    nameAge.get_widths = some [5, 3] ∧
    sepLine [5, 3] ++ (nameAge.rows.map (rowLine nameAge.stream.flags [5, 3])).flatten
        ++ sepLine [5, 3]
      = ("+-------+-----+\n|  Name | Age |\n+-------+-----+\n| Alice |  30 |\n"
          ++ "|   Bob |   7 |\n+-------+-----+\n").toList :=
  ⟨⟨by decide, Reachable.add _ (Reachable.add _
      (Reachable.addSeparator (Reachable.addStrings _ Reachable.new)))⟩,
    C4_output_structure (by decide) FmtFlags.zero 6 nameAge
      (Reachable.add _ (Reachable.add _
        (Reachable.addSeparator (Reachable.addStrings _ Reachable.new)))),
    by decide,
    by set_option maxRecDepth 100000 in decide⟩

/-- C5 (alignment). On every reachable table with at least one column whose cell texts
hold no newline, `get()` succeeds and its output is `rows + 2` lines, each free of
newlines, each of exactly `lineLength = 1 + Σ (width + 3)` characters and each followed by
one newline; and no cell text is longer than the width of its column. -/
theorem C5_alignment {N : Nat} (hN : 0 < N) (flags : FmtFlags) (precision : Int)
    (t : SimpleTable N) (ht : Reachable flags precision t)
    (hnl : ∀ row ∈ t.rows, ∀ texts, row.texts t.stream.flags = some texts →
      ∀ x ∈ texts, '\n' ∉ x) :
    ∃ W out t', ∃ lines : List (List Char), t.get_widths = some W ∧ t.get = some (out, t') ∧
      out = (lines.map fun l => l ++ ['\n']).flatten ∧
      lines.length = t.rows.length + 2 ∧
      (∀ l ∈ lines, '\n' ∉ l ∧ l.length = lineLength W) ∧
      ∀ row ∈ t.rows, ∀ texts, row.texts t.stream.flags = some texts →
        List.Forall₂ (fun w (text : List Char) => text.length ≤ w) W texts := by
  obtain ⟨t', hget, _⟩ := get_lines hN ht
  have hW : ((List.range N).map (specWidth t.stream.flags t.rows)).length = N := by simp
  obtain ⟨lines, hl, hall⟩ := exists_lines
    (fun b => '\n' ∉ b ∧ b.length = lineLength ((List.range N).map
      (specWidth t.stream.flags t.rows)))
    (sepLine ((List.range N).map (specWidth t.stream.flags t.rows)) ::
      (t.rows.map (rowText t.stream.flags
        ((List.range N).map (specWidth t.stream.flags t.rows))) ++
      [sepLine ((List.range N).map (specWidth t.stream.flags t.rows))]))
    (by
      intro x hx
      have hsep := rowText_body hN t.stream.flags t.rows hnl Row.separator (Or.inr rfl)
      rw [rowText_separator hN _ _ hW] at hsep
      simp only [List.mem_cons, List.mem_append, List.mem_map, List.mem_singleton,
        List.not_mem_nil, or_false] at hx
      rcases hx with hx | ⟨row, hrow, hx⟩ | hx
      · rw [hx]; exact hsep
      · rw [← hx]
        exact rowText_body hN t.stream.flags t.rows hnl row (Or.inl hrow)
      · rw [hx]; exact hsep)
  refine ⟨_, _, t', lines, (get_reachable ht).1, hget, by rw [hl], ?_, hall, ?_⟩
  · have := congrArg List.length hl
    simp only [List.length_cons, List.length_append, List.length_map, List.length_nil] at this
    omega
  · intro row hrow texts htexts
    rw [Row.texts_eq] at htexts
    cases hc : row.cells with
    | none => simp [hc] at htexts
    | some vs =>
      simp only [hc, Option.map_some', Option.some.injEq] at htexts
      rw [← htexts, List.forall₂_map_right_iff]
      exact fits_spec t.stream.flags t.rows row hrow vs hc

/-- Witness of C5: the table of Alice and Bob. -/
theorem C5_alignment_witness :
    (0 < 2 ∧ Reachable FmtFlags.zero 6 aliceBob ∧
      ∀ row ∈ aliceBob.rows, ∀ texts, row.texts aliceBob.stream.flags = some texts →
        ∀ x ∈ texts, '\n' ∉ x) ∧
    ∃ W out t', ∃ lines : List (List Char), aliceBob.get_widths = some W ∧ aliceBob.get = some (out, t') ∧
      out = (lines.map fun l => l ++ ['\n']).flatten ∧
      lines.length = aliceBob.rows.length + 2 ∧
      (∀ l ∈ lines, '\n' ∉ l ∧ l.length = lineLength W) ∧
      ∀ row ∈ aliceBob.rows, ∀ texts, row.texts aliceBob.stream.flags = some texts →
        List.Forall₂ (fun w (text : List Char) => text.length ≤ w) W texts :=
  have hnl : ∀ row ∈ aliceBob.rows, ∀ texts, row.texts aliceBob.stream.flags = some texts →
      ∀ x ∈ texts, '\n' ∉ x := by
    intro row hrow texts htexts x hx
    simp only [aliceBob, SimpleTable.add, SimpleTable.new, List.nil_append, List.cons_append,
      List.mem_cons, List.not_mem_nil, or_false] at hrow
    rcases hrow with h | h <;> subst h <;>
      simp only [Row.texts, Option.some.injEq] at htexts <;> subst htexts <;>
      simp only [List.map_cons, List.map_nil, List.mem_cons, List.not_mem_nil, or_false] at hx <;>
      rcases hx with h | h <;> subst h <;> decide
  ⟨⟨by decide, Reachable.add _ (Reachable.add _ Reachable.new), hnl⟩,
    C5_alignment (by decide) FmtFlags.zero 6 aliceBob
      (Reachable.add _ (Reachable.add _ Reachable.new)) hnl⟩

/-- C6 (idempotence and history-independence of `get()`). On every reachable table,
whatever calls led to it, `get()` succeeds and leaves the rows as they are; a second call
right after returns the same string; a table freshly constructed with the same
configuration to which the same rows are added returns the same string; and so does the
table with any other buffer, put position and fill character in its stream. -/
theorem C6_get_history_independent {N : Nat} (flags : FmtFlags) (precision : Int)
    (t : SimpleTable N) (ht : Reachable flags precision t) :
    ∃ out t', t.get = some (out, t') ∧ t'.rows = t.rows ∧
      t'.get.map Prod.fst = some out ∧
      (fromRows N flags precision t.rows).get.map Prod.fst = some out ∧
      ∀ (buf : List Char) (pos : Nat) (fill : Char),
        (SimpleTable.get
          ⟨{ t.stream with buf := buf, pos := pos, fill := fill }, t.rows⟩).map Prod.fst
          = some out := by
  obtain ⟨_, t', hget, hrows, ht'⟩ := get_reachable ht
  generalize rowText t.stream.flags ((List.range N).map (specWidth t.stream.flags t.rows))
      (Row.separator : Row N) ++
    (t.rows.map (rowText t.stream.flags
      ((List.range N).map (specWidth t.stream.flags t.rows)))).flatten ++
    rowText t.stream.flags ((List.range N).map (specWidth t.stream.flags t.rows))
      (Row.separator : Row N) = out at hget
  have hout : t.get.map Prod.fst = some out := by rw [hget]; rfl
  refine ⟨out, t', hget, hrows, ?_, ?_, ?_⟩
  · rw [← hout]
    exact get_out_congr t' t ht'.stream_inv.1 ht.stream_inv.1
      (ht'.stream_inv.2.1.trans ht.stream_inv.2.1.symm) hrows
  · rw [← hout]
    have h := foldl_addRow t.rows (SimpleTable.new N flags precision)
    apply get_out_congr
    · unfold fromRows
      rw [h.2]
      rfl
    · exact ht.stream_inv.1
    · unfold fromRows
      rw [h.2, ht.stream_inv.2.1]
      rfl
    · unfold fromRows
      rw [h.1]
      rfl
  · intro buf pos fill
    rw [← hout]
    exact get_out_congr _ t ht.stream_inv.1 ht.stream_inv.1 rfl rfl

/-- Witness of C6: the table of Alice and Bob. -/
theorem C6_get_history_independent_witness :
    Reachable FmtFlags.zero 6 aliceBob ∧
    ∃ out t', aliceBob.get = some (out, t') ∧ t'.rows = aliceBob.rows ∧
      t'.get.map Prod.fst = some out ∧
      (fromRows 2 FmtFlags.zero 6 aliceBob.rows).get.map Prod.fst = some out ∧
      ∀ (buf : List Char) (pos : Nat) (fill : Char),
        (SimpleTable.get
          ⟨{ aliceBob.stream with buf := buf, pos := pos, fill := fill },
            aliceBob.rows⟩).map Prod.fst = some out :=
  ⟨Reachable.add _ (Reachable.add _ Reachable.new),
    C6_get_history_independent FmtFlags.zero 6 aliceBob
      (Reachable.add _ (Reachable.add _ Reachable.new))⟩

/-- C7 (empty table). On every reachable table with at least one column that holds no
value row and no string row, all widths are 0 and `get()` returns `k + 2` copies of the
minimal frame line, a plus followed by `N` times `--+` and a newline, where `k` is the
number of separator rows; with no rows at all these are two lines. -/
theorem C7_empty_table {N : Nat} (hN : 0 < N) (flags : FmtFlags) (precision : Int)
    (t : SimpleTable N) (ht : Reachable flags precision t)
    (hsep : ∀ row ∈ t.rows, row = Row.separator) :
    t.get_widths = some (List.replicate N 0) ∧
    t.get.map Prod.fst = some
      (List.replicate (t.rows.length + 2)
        ('+' :: (List.replicate N ['-', '-', '+']).flatten ++ ['\n'])).flatten := by
  obtain ⟨hw, t', hget, _⟩ := get_reachable ht
  have hW : (List.range N).map (specWidth t.stream.flags t.rows) = List.replicate N 0 := by
    apply List.ext_getElem?
    intro i
    by_cases hi : i < N
    · simp [List.getElem?_replicate, hi, List.getElem?_range hi,
        specWidth_of_separators _ _ hsep]
    · rw [List.getElem?_eq_none (by simp; omega), List.getElem?_eq_none (by simp; omega)]
  rw [hW] at hw hget
  refine ⟨hw, ?_⟩
  have hline : sepLine (List.replicate N 0)
      = '+' :: (List.replicate N ['-', '-', '+']).flatten ++ ['\n'] := by
    simp [sepLine, List.map_replicate]
  have hrow : ∀ row ∈ t.rows, rowText t.stream.flags (List.replicate N 0) row
      = '+' :: (List.replicate N ['-', '-', '+']).flatten ++ ['\n'] := by
    intro row hrow
    rw [hsep row hrow, rowText_separator hN _ _ (by simp), hline]
  have hmap : t.rows.map (rowText t.stream.flags (List.replicate N 0))
      = List.replicate t.rows.length
          ('+' :: (List.replicate N ['-', '-', '+']).flatten ++ ['\n']) := by
    rw [List.eq_replicate_iff]
    refine ⟨by simp, ?_⟩
    intro x hx
    rw [List.mem_map] at hx
    obtain ⟨row, hmem, hx⟩ := hx
    rw [← hx, hrow row hmem]
  rw [hget, rowText_separator hN _ _ (by simp), hline, hmap]
  simp only [Option.map_some', Option.some.injEq]
  rw [show t.rows.length + 2 = 1 + t.rows.length + 1 by omega, List.replicate_add,
    List.replicate_add]
  simp

/-- Witness of C7: two columns and no rows give `+--+--+` twice. -/
theorem C7_empty_table_witness :
    (0 < 2 ∧ Reachable FmtFlags.zero 6 (SimpleTable.new 2 FmtFlags.zero 6) ∧
      ∀ row ∈ (SimpleTable.new 2 FmtFlags.zero 6).rows, row = Row.separator) ∧
    ((SimpleTable.new 2 FmtFlags.zero 6).get_widths = some (List.replicate 2 0) ∧
      (SimpleTable.new 2 FmtFlags.zero 6).get.map Prod.fst = some
        (List.replicate ((SimpleTable.new 2 FmtFlags.zero 6).rows.length + 2)
          ('+' :: (List.replicate 2 ['-', '-', '+']).flatten ++ ['\n'])).flatten) ∧
    (List.replicate ((SimpleTable.new 2 FmtFlags.zero 6).rows.length + 2)
        ('+' :: (List.replicate 2 ['-', '-', '+']).flatten ++ ['\n'])).flatten
      = "+--+--+\n+--+--+\n".toList :=
  ⟨⟨by decide, Reachable.new, by intro row hrow; simp [SimpleTable.new] at hrow⟩,
    C7_empty_table (by decide) FmtFlags.zero 6 (SimpleTable.new 2 FmtFlags.zero 6)
      Reachable.new (by intro row hrow; simp [SimpleTable.new] at hrow),
    by decide⟩

/-- C8, as the specification states it, fails: on the table of Alice and Bob `get()` does
not return the text whose third line is `| Bob   |  7 |`. -/
theorem C8_round_trip_counterexample :
    aliceBob.get.map Prod.fst
      ≠ some "+-------+----+\n| Alice | 30 |\n| Bob   |  7 |\n+-------+----+\n".toList := by
  set_option maxRecDepth 100000 in decide

/-- C8, amended (round-trip example). For columns (string, int) and the default
configuration, after adding ("Alice", 30) and ("Bob", 7) the widths are 5 and 2 and
`get()` returns the four lines `+-------+----+`, `| Alice | 30 |`, `|   Bob |  7 |`,
`+-------+----+`, each followed by a newline: every cell, the strings included, is
right-justified, and no separator stands between the two rows. -/
theorem C8_round_trip_amended :
    aliceBob.get_widths = some [5, 2] ∧
    aliceBob.get.map Prod.fst
      = some "+-------+----+\n| Alice | 30 |\n|   Bob |  7 |\n+-------+----+\n".toList := by
  set_option maxRecDepth 100000 in decide

/-- C9 (frame symmetry). On every reachable table with at least one column the output of
`get()` consists of `rows + 2` runs of `lineLength + 1` characters, and the last run and
the run of every separator row are character for character the first run. -/
theorem C9_frame_symmetry {N : Nat} (hN : 0 < N) (flags : FmtFlags) (precision : Int)
    (t : SimpleTable N) (ht : Reachable flags precision t) :
    ∃ W out t', t.get_widths = some W ∧ t.get = some (out, t') ∧
      out.length = (t.rows.length + 2) * (lineLength W + 1) ∧
      block out (lineLength W + 1) (t.rows.length + 1) = block out (lineLength W + 1) 0 ∧
      ∀ k : Nat, t.rows[k]? = some Row.separator →
        block out (lineLength W + 1) (k + 1) = block out (lineLength W + 1) 0 := by
  obtain ⟨W, out, t', h1, h2, h3, h4, h5, h6⟩ := separator_blocks hN ht
  exact ⟨W, out, t', h1, h2, h3, h5.trans h4.symm, fun k hk => (h6 k hk).trans h4.symm⟩

/-- Witness of C9: the table of Alice and Bob. -/
theorem C9_frame_symmetry_witness :
    (0 < 2 ∧ Reachable FmtFlags.zero 6 aliceBob) ∧
    ∃ W out t', aliceBob.get_widths = some W ∧ aliceBob.get = some (out, t') ∧
      out.length = (aliceBob.rows.length + 2) * (lineLength W + 1) ∧
      block out (lineLength W + 1) (aliceBob.rows.length + 1)
        = block out (lineLength W + 1) 0 ∧
      ∀ k : Nat, aliceBob.rows[k]? = some Row.separator →
        block out (lineLength W + 1) (k + 1) = block out (lineLength W + 1) 0 :=
  ⟨⟨by decide, Reachable.add _ (Reachable.add _ Reachable.new)⟩,
    C9_frame_symmetry (by decide) FmtFlags.zero 6 aliceBob
      (Reachable.add _ (Reachable.add _ Reachable.new))⟩

/-- C10 (width monotonicity under append). On every reachable table and for every row
`R`, the widths `get()` computes after `R` was added are column by column at least the
widths it computes before; and if no cell text of `R` is longer than the present width of
its column (a separator has no cells), the widths are the same and the output after the
addition is the output before with the text of `R` put in front of the closing separator:
the separator and every earlier row are rendered as before. -/
theorem C10_width_monotone {N : Nat} (flags : FmtFlags) (precision : Int)
    (t : SimpleTable N) (ht : Reachable flags precision t) (R : Row N) :
    ∃ W W', t.get_widths = some W ∧ (t.addRow R).get_widths = some W' ∧
      List.Forall₂ (fun w w' => w ≤ w') W W' ∧
      ((∀ texts, R.texts t.stream.flags = some texts →
          List.Forall₂ (fun w (text : List Char) => text.length ≤ w) W texts) →
        W' = W ∧
        t.get.map Prod.fst = some
          (rendering flags precision W (Row.separator : Row N) ++
            (t.rows.map (rendering flags precision W)).flatten ++
            rendering flags precision W (Row.separator : Row N)) ∧
        (t.addRow R).get.map Prod.fst = some
          (rendering flags precision W (Row.separator : Row N) ++
            (t.rows.map (rendering flags precision W)).flatten ++
            rendering flags precision W R ++
            rendering flags precision W (Row.separator : Row N))) := by
  obtain ⟨h1, t1, g1, _⟩ := get_reachable ht
  obtain ⟨h2, t2, g2, _⟩ := get_reachable (ht.addRow R)
  rw [(addRow_rows t R).1, (addRow_rows t R).2] at h2 g2
  have hW : ((List.range N).map (specWidth t.stream.flags t.rows)).length = N := by simp
  have hr : (rendering flags precision ((List.range N).map (specWidth t.stream.flags t.rows)) :
        Row N → List Char)
      = rowText t.stream.flags ((List.range N).map (specWidth t.stream.flags t.rows)) := by
    funext row
    rw [rendering_eq flags precision _ hW row, ht.stream_inv.2.1]
  refine ⟨_, _, h1, h2, ?_, ?_⟩
  · rw [List.forall₂_map_left_iff, List.forall₂_map_right_iff, List.forall₂_same]
    intro i _
    rw [specWidth_append]
    cases R.cellLength t.stream.flags i with
    | none => exact Nat.le_refl _
    | some l => exact Nat.le_max_left _ _
  · intro hfit
    have hsame : (List.range N).map (specWidth t.stream.flags (t.rows ++ [R]))
        = (List.range N).map (specWidth t.stream.flags t.rows) := by
      apply List.map_congr_left
      intro i hi
      exact specWidth_append_of_fits _ _ _ hfit i (List.mem_range.mp hi)
    rw [hsame] at g2
    refine ⟨hsame, ?_, ?_⟩
    · rw [g1, hr]
      rfl
    · rw [g2, hr]
      simp

/-- Witness of C10: a third row ("Eve", 5) added to the table of Alice and Bob; its cells
fit the widths 5 and 2. -/
theorem C10_width_monotone_witness :
    Reachable FmtFlags.zero 6 aliceBob ∧
    (∃ W W', aliceBob.get_widths = some W ∧
      (aliceBob.addRow (Row.values ⟨[Value.str "Eve".toList, Value.int 5], rfl⟩)).get_widths
        = some W' ∧
      List.Forall₂ (fun w w' => w ≤ w') W W' ∧
      ((∀ texts, (Row.values ⟨[Value.str "Eve".toList, Value.int 5], rfl⟩ : Row 2).texts
            aliceBob.stream.flags = some texts →
          List.Forall₂ (fun w (text : List Char) => text.length ≤ w) W texts) →
        W' = W ∧
        aliceBob.get.map Prod.fst = some
          (rendering FmtFlags.zero 6 W (Row.separator : Row 2) ++
            (aliceBob.rows.map (rendering FmtFlags.zero 6 W)).flatten ++
            rendering FmtFlags.zero 6 W (Row.separator : Row 2)) ∧
        (aliceBob.addRow (Row.values ⟨[Value.str "Eve".toList, Value.int 5], rfl⟩)).get.map
            Prod.fst = some
          (rendering FmtFlags.zero 6 W (Row.separator : Row 2) ++
            (aliceBob.rows.map (rendering FmtFlags.zero 6 W)).flatten ++
            rendering FmtFlags.zero 6 W
              (Row.values ⟨[Value.str "Eve".toList, Value.int 5], rfl⟩) ++
            rendering FmtFlags.zero 6 W (Row.separator : Row 2)))) ∧
    aliceBob.get_widths = some [5, 2] ∧
    ∀ texts, (Row.values ⟨[Value.str "Eve".toList, Value.int 5], rfl⟩ : Row 2).texts
        aliceBob.stream.flags = some texts →
      List.Forall₂ (fun w (text : List Char) => text.length ≤ w) [5, 2] texts :=
  ⟨Reachable.add _ (Reachable.add _ Reachable.new),
    C10_width_monotone FmtFlags.zero 6 aliceBob
      (Reachable.add _ (Reachable.add _ Reachable.new))
      (Row.values ⟨[Value.str "Eve".toList, Value.int 5], rfl⟩),
    by decide,
    by
      intro texts h
      simp only [Row.texts, Option.some.injEq] at h
      subst h
      exact List.Forall₂.cons (by decide) (List.Forall₂.cons (by decide) List.Forall₂.nil)⟩

/-- C11 (justification follows the configuration). Take a table constructed with the
left-adjust flag (and neither `right` nor `internal`) and a table with the same rows
constructed with the same flags except that `left` is absent and `right` may or may not be
present, both with at least one column.  Both compute the same widths; a value or string
row is rendered in the first as bar, then per column a space, the text followed by
`width - length` spaces, a space and a bar, then a newline, and in the second with those
spaces before the text; the first run, the last run and the run of every separator row
are the same separator line in both. -/
theorem C11_justification {N : Nat} (hN : 0 < N) (flags : FmtFlags) (r : Bool)
    (precision : Int) (hleft : flags.left = true) (hright : flags.right = false)
    (hinternal : flags.internal = false) (tL tR : SimpleTable N)
    (hL : Reachable flags precision tL)
    (hR : Reachable { flags with left := false, right := r } precision tR)
    (hrows : tR.rows = tL.rows) (k : Nat) (row : Row N) (texts : List (List Char))
    (hk : tL.rows[k]? = some row) (htexts : row.texts tL.stream.flags = some texts) :
    ∃ W outL outR tL' tR', tL.get_widths = some W ∧ tR.get_widths = some W ∧
      tL.get = some (outL, tL') ∧ tR.get = some (outR, tR') ∧
      row.texts tR.stream.flags = some texts ∧
      block outL (lineLength W + 1) (k + 1) = leftLine W texts ∧
      block outR (lineLength W + 1) (k + 1) = dataLine W texts ∧
      block outL (lineLength W + 1) 0 = sepLine W ∧
      block outR (lineLength W + 1) 0 = sepLine W ∧
      block outL (lineLength W + 1) (tL.rows.length + 1) = sepLine W ∧
      block outR (lineLength W + 1) (tL.rows.length + 1) = sepLine W ∧
      ∀ j : Nat, tL.rows[j]? = some Row.separator →
        block outL (lineLength W + 1) (j + 1) = sepLine W ∧
        block outR (lineLength W + 1) (j + 1) = sepLine W := by
  have hfL := hL.stream_inv.2.1
  have hfR := hR.stream_inv.2.1
  have hadjL : tL.stream.flags.adjust = Adjust.left := by
    rw [hfL]
    simp [FmtFlags.adjust, FmtFlags.union, FmtFlags.init, FmtFlags.zero, hleft, hright,
      hinternal]
  have hadjR : tR.stream.flags.adjust = Adjust.right := by
    rw [hfR]
    simp [FmtFlags.adjust, FmtFlags.union, FmtFlags.init, FmtFlags.zero, hinternal]
  have htext : ∀ v : Value, v.text tR.stream.flags = v.text tL.stream.flags := by
    intro v
    unfold Value.text
    rw [Value.pieces_congr tR.stream.flags tL.stream.flags (by rw [hfL, hfR]; rfl)
      (by rw [hfL, hfR]; rfl) (by rw [hfL, hfR]; rfl) (by rw [hfL, hfR]; rfl) v]
  have hWeq : (List.range N).map (specWidth tR.stream.flags tR.rows)
      = (List.range N).map (specWidth tL.stream.flags tL.rows) := by
    rw [hrows]
    apply List.map_congr_left
    intro i _
    exact specWidth_congr _ _ htext tL.rows i
  obtain ⟨outL, tL', wL, gL, a0, a1, a2, a3⟩ := blocks_reachable hN hL
  obtain ⟨outR, tR', wR, gR, b0, b1, b2, b3⟩ := blocks_reachable hN hR
  rw [hWeq] at wR b0 b1 b2 b3
  rw [hrows] at b1 b2 b3
  have htR : row.texts tR.stream.flags = some texts := by
    rw [Row.texts_congr _ _ htext row, htexts]
  rw [Row.texts_eq] at htexts
  cases hc : row.cells with
  | none => simp [hc] at htexts
  | some vs =>
    simp only [hc, Option.map_some', Option.some.injEq] at htexts
    refine ⟨_, outL, outR, tL', tR', wL, wR, gL, gR, htR, ?_, ?_, a0, b0, a1, b1,
      fun j hj => ⟨a2 j hj, b2 j hj⟩⟩
    · rw [a3 k row vs hk hc, fieldLine_left _ hadjL, htexts]
    · have hmap : vs.map (Value.text tR.stream.flags) = texts := by
        rw [← htexts]
        exact List.map_congr_left fun v _ => htext v
      rw [b3 k row vs hk hc, fieldLine_right _ hadjR, hmap]

/-- Witness of C11: the table of Alice and Bob with and without the flag `left`; the row
of Bob is `| Bob   | 7  |` in the first and `|   Bob |  7 |` in the second. -/
theorem C11_justification_witness :
    (0 < 2 ∧ ({ FmtFlags.zero with left := true } : FmtFlags).left = true ∧
      ({ FmtFlags.zero with left := true } : FmtFlags).right = false ∧
      ({ FmtFlags.zero with left := true } : FmtFlags).internal = false ∧
      Reachable { FmtFlags.zero with left := true } 6 aliceBobLeft ∧
      Reachable { ({ FmtFlags.zero with left := true } : FmtFlags) with
        left := false, right := false } 6 aliceBob ∧
      aliceBob.rows = aliceBobLeft.rows ∧
      aliceBobLeft.rows[1]? = some (Row.values ⟨[Value.str "Bob".toList, Value.int 7], rfl⟩) ∧
      (Row.values ⟨[Value.str "Bob".toList, Value.int 7], rfl⟩ : Row 2).texts
          aliceBobLeft.stream.flags = some ["Bob".toList, "7".toList]) ∧
    (∃ W outL outR tL' tR', aliceBobLeft.get_widths = some W ∧ aliceBob.get_widths = some W ∧
      aliceBobLeft.get = some (outL, tL') ∧ aliceBob.get = some (outR, tR') ∧
      (Row.values ⟨[Value.str "Bob".toList, Value.int 7], rfl⟩ : Row 2).texts
          aliceBob.stream.flags = some ["Bob".toList, "7".toList] ∧
      block outL (lineLength W + 1) (1 + 1) = leftLine W ["Bob".toList, "7".toList] ∧
      block outR (lineLength W + 1) (1 + 1) = dataLine W ["Bob".toList, "7".toList] ∧
      block outL (lineLength W + 1) 0 = sepLine W ∧
      block outR (lineLength W + 1) 0 = sepLine W ∧
      block outL (lineLength W + 1) (aliceBobLeft.rows.length + 1) = sepLine W ∧
      block outR (lineLength W + 1) (aliceBobLeft.rows.length + 1) = sepLine W ∧
      ∀ j : Nat, aliceBobLeft.rows[j]? = some Row.separator →
        block outL (lineLength W + 1) (j + 1) = sepLine W ∧
        block outR (lineLength W + 1) (j + 1) = sepLine W) ∧
    leftLine [5, 2] ["Bob".toList, "7".toList] = "| Bob   | 7  |\n".toList ∧
    dataLine [5, 2] ["Bob".toList, "7".toList] = "|   Bob |  7 |\n".toList :=
  ⟨⟨by decide, rfl, rfl, rfl, Reachable.add _ (Reachable.add _ Reachable.new),
      Reachable.add _ (Reachable.add _ Reachable.new), by decide, by decide, by decide⟩,
    C11_justification (by decide) { FmtFlags.zero with left := true } false 6 rfl rfl rfl
      aliceBobLeft aliceBob (Reachable.add _ (Reachable.add _ Reachable.new))
      (Reachable.add _ (Reachable.add _ Reachable.new)) (by decide) 1
      (Row.values ⟨[Value.str "Bob".toList, Value.int 7], rfl⟩)
      ["Bob".toList, "7".toList] (by decide) (by decide),
    by decide, by decide⟩

/-- C12 (append-only storage). On every reachable table each of the three `add` overloads
yields the row sequence of before followed by exactly one new row of its kind holding the
given cells (a string row, a value row, a separator), and leaves the stream, hence the
configuration, as it is; `get()` succeeds and leaves the row sequence as it is. -/
theorem C12_append_only {N : Nat} (flags : FmtFlags) (precision : Int) (t : SimpleTable N)
    (ht : Reachable flags precision t) (strings : Cells (List Char) N)
    (values : Cells Value N) :
    (t.addStrings strings).rows = t.rows ++ [Row.strings strings] ∧
    (t.addStrings strings).stream = t.stream ∧
    (t.add values).rows = t.rows ++ [Row.values values] ∧
    (t.add values).stream = t.stream ∧
    t.addSeparator.rows = t.rows ++ [Row.separator] ∧
    t.addSeparator.stream = t.stream ∧
    ∃ out t', t.get = some (out, t') ∧ t'.rows = t.rows := by
  obtain ⟨_, t', hget, hrows, _⟩ := get_reachable ht
  exact ⟨rfl, rfl, rfl, rfl, rfl, rfl, _, t', hget, hrows⟩

/-- Witness of C12: the table of Alice and Bob, to which ("Name", "Age") or ("Eve", 5) or
a separator is added. -/
theorem C12_append_only_witness :
    Reachable FmtFlags.zero 6 aliceBob ∧
    ((aliceBob.addStrings ⟨["Name".toList, "Age".toList], rfl⟩).rows
        = aliceBob.rows ++ [(Row.strings ⟨["Name".toList, "Age".toList], rfl⟩ : Row 2)] ∧
      (aliceBob.addStrings ⟨["Name".toList, "Age".toList], rfl⟩).stream = aliceBob.stream ∧
      (aliceBob.add ⟨[Value.str "Eve".toList, Value.int 5], rfl⟩).rows
        = aliceBob.rows ++
          [(Row.values ⟨[Value.str "Eve".toList, Value.int 5], rfl⟩ : Row 2)] ∧
      (aliceBob.add ⟨[Value.str "Eve".toList, Value.int 5], rfl⟩).stream = aliceBob.stream ∧
      aliceBob.addSeparator.rows = aliceBob.rows ++ [Row.separator] ∧
      aliceBob.addSeparator.stream = aliceBob.stream ∧
      ∃ out t', aliceBob.get = some (out, t') ∧ t'.rows = aliceBob.rows) :=
  ⟨Reachable.add _ (Reachable.add _ Reachable.new),
    C12_append_only FmtFlags.zero 6 aliceBob
      (Reachable.add _ (Reachable.add _ Reachable.new))
      ⟨["Name".toList, "Age".toList], rfl⟩ ⟨[Value.str "Eve".toList, Value.int 5], rfl⟩⟩

/-- C13 (`get()` is total). On every reachable table `get()` succeeds, with a widths
array of `N` entries.  The indices at which the two passes access that array while they
run over a row (a value row, a string row, or the `N` empty strings of a separator) are
`0, 1, ..., N - 1` in this order, the `k`-th cell using index `k`; and each of the two
folds fails exactly when one of the indices it uses lies outside the array, so the
success of `get()` means that no access was out of range. -/
theorem C13_get_total {N : Nat} (flags : FmtFlags) (precision : Int) (t : SimpleTable N)
    (ht : Reachable flags precision t) :
    (∃ W out t', t.get_widths = some W ∧ W.length = N ∧ t.get = some (out, t')) ∧
    (∀ row ∈ t.rows, ∀ vs, row.cells = some vs → accessed vs 0 = List.range N) ∧
    accessed (List.replicate N (Value.str [])) 0 = List.range N ∧
    (∀ (vs : List Value) (index : Nat) (W : List Nat) (s : OStringStream),
      compute_widths vs index W s ≠ none ↔ ∀ i ∈ accessed vs index, i < W.length) ∧
    ∀ (sep pad : List Char) (vs : List Value) (index : Nat) (W : List Nat)
      (s : OStringStream),
      streamify_cells N sep pad W vs index s ≠ none ↔ ∀ i ∈ accessed vs index, i < W.length := by
  obtain ⟨hw, t', hget, _⟩ := get_reachable ht
  refine ⟨⟨_, _, t', hw, by simp, hget⟩, ?_, ?_, compute_widths_ne_none_iff, ?_⟩
  · intro row _ vs hc
    exact accessed_eq_range vs (Row.cells_length hc)
  · exact accessed_eq_range _ (by simp)
  · intro sep pad vs index W s
    exact streamify_cells_ne_none_iff N sep pad W vs index s

/-- Witness of C13: the table of Alice and Bob. -/
theorem C13_get_total_witness :
    Reachable FmtFlags.zero 6 aliceBob ∧
    ((∃ W out t', aliceBob.get_widths = some W ∧ W.length = 2 ∧
        aliceBob.get = some (out, t')) ∧
      (∀ row ∈ aliceBob.rows, ∀ vs, row.cells = some vs → accessed vs 0 = List.range 2) ∧
      accessed (List.replicate 2 (Value.str [])) 0 = List.range 2 ∧
      (∀ (vs : List Value) (index : Nat) (W : List Nat) (s : OStringStream),
        compute_widths vs index W s ≠ none ↔ ∀ i ∈ accessed vs index, i < W.length) ∧
      ∀ (sep pad : List Char) (vs : List Value) (index : Nat) (W : List Nat)
        (s : OStringStream),
        streamify_cells 2 sep pad W vs index s ≠ none
          ↔ ∀ i ∈ accessed vs index, i < W.length) :=
  ⟨Reachable.add _ (Reachable.add _ Reachable.new),
    C13_get_total FmtFlags.zero 6 aliceBob (Reachable.add _ (Reachable.add _ Reachable.new))⟩

/-- C14 (probe text never leaks). On every reachable table with at least one column the
width pass succeeds and hands the render pass a stream whose put position is 0 and whose
buffer is what the probes left: the cell texts written one over the other from the start
of the emptied buffer.  `get()` succeeds all the same and returns exactly the characters
of the render pass (separator, rows, separator), which are also all the stream then
holds: every probe, and the probe text in the buffer, is strictly shorter than the leading
separator line alone. -/
theorem C14_probe_text_never_leaks {N : Nat} (hN : 0 < N) (flags : FmtFlags)
    (precision : Int) (t : SimpleTable N) (ht : Reachable flags precision t) :
    ∃ W s0 out t', t.pass1 = some (W, s0) ∧ s0.pos = 0 ∧
      s0.buf = probeBuf [] (probeTexts t.stream.flags t.rows) ∧
      t.get = some (out, t') ∧
      out = rendering flags precision W (Row.separator : Row N) ++
        (t.rows.map (rendering flags precision W)).flatten ++
        rendering flags precision W (Row.separator : Row N) ∧
      t'.stream.str = out ∧
      (∀ text ∈ probeTexts t.stream.flags t.rows,
        text.length < (rendering flags precision W (Row.separator : Row N)).length) ∧
      s0.buf.length < (rendering flags precision W (Row.separator : Row N)).length := by
  obtain ⟨s0, e0, p0⟩ := compute_all_eq t.stream.flags t.rows (List.replicate N 0)
    (t.stream.setStr []) (by simp) rfl ht.stream_inv.1 rfl
  rw [foldl_raiseRow_eq_spec] at e0 p0
  obtain ⟨hbuf, _, _, hpos⟩ := compute_all_buf t.rows (List.replicate N 0)
    (t.stream.setStr []) _ ht.stream_inv.1 rfl e0
  obtain ⟨_, t', hget, _⟩ := get_reachable ht
  have hW : ((List.range N).map (specWidth t.stream.flags t.rows)).length = N := by simp
  have hr : (rendering flags precision ((List.range N).map (specWidth t.stream.flags t.rows)) :
        Row N → List Char)
      = rowText t.stream.flags ((List.range N).map (specWidth t.stream.flags t.rows)) := by
    funext row
    rw [rendering_eq flags precision _ hW row, ht.stream_inv.2.1]
  have hsep : rendering flags precision ((List.range N).map (specWidth t.stream.flags t.rows))
      (Row.separator : Row N) = sepLine ((List.range N).map (specWidth t.stream.flags t.rows)) := by
    rw [hr, rowText_separator hN _ _ hW]
  refine ⟨_, s0, _, t', e0, hpos, hbuf, hget, by rw [hr], get_str t t' _ hget, ?_, ?_⟩
  · intro text htext
    rw [hsep]
    exact probeText_lt_sepLine t.stream.flags t.rows text htext
  · rw [hsep]
    have h1 : s0.buf.length ≤ max 0 _ := p0.buf
    have h2 := sum_lt_sepLine_length ((List.range N).map (specWidth t.stream.flags t.rows))
    simp only [Nat.zero_max] at h1
    omega

/-- Witness of C14: in the table of Alice and Bob the probes of "Alice", "30", "Bob" and
"7" leave `7obce` in the buffer, and the output starts with the separator line. -/
theorem C14_probe_text_never_leaks_witness :
    (0 < 2 ∧ Reachable FmtFlags.zero 6 aliceBob) ∧
    (∃ W s0 out t', aliceBob.pass1 = some (W, s0) ∧ s0.pos = 0 ∧
      s0.buf = probeBuf [] (probeTexts aliceBob.stream.flags aliceBob.rows) ∧
      aliceBob.get = some (out, t') ∧
      out = rendering FmtFlags.zero 6 W (Row.separator : Row 2) ++
        (aliceBob.rows.map (rendering FmtFlags.zero 6 W)).flatten ++
        rendering FmtFlags.zero 6 W (Row.separator : Row 2) ∧
      t'.stream.str = out ∧
      (∀ text ∈ probeTexts aliceBob.stream.flags aliceBob.rows,
        text.length < (rendering FmtFlags.zero 6 W (Row.separator : Row 2)).length) ∧
      s0.buf.length < (rendering FmtFlags.zero 6 W (Row.separator : Row 2)).length) ∧
    probeBuf [] (probeTexts aliceBob.stream.flags aliceBob.rows) = "7obce".toList :=
  ⟨⟨by decide, Reachable.add _ (Reachable.add _ Reachable.new)⟩,
    C14_probe_text_never_leaks (by decide) FmtFlags.zero 6 aliceBob
      (Reachable.add _ (Reachable.add _ Reachable.new)),
    by decide⟩

/-- C15 (row kind is not observable). On every reachable table whose adjustment is left or
right (anything but `internal`), replacing a value row by the string row of its cell texts
under the table's flags changes nothing: a table freshly built with the same configuration
from the row sequence with that one row replaced computes the same widths and returns the
same string, and the replaced row by itself is rendered to the same text. -/
theorem C15_row_kind_not_observable {N : Nat} (flags : FmtFlags) (precision : Int)
    (t : SimpleTable N) (ht : Reachable flags precision t)
    (hadj : t.stream.flags.adjust ≠ Adjust.internal) (pre post : List (Row N))
    (c : Cells Value N) (hrows : t.rows = pre ++ Row.values c :: post) :
    ∃ W out t', t.get_widths = some W ∧ t.get = some (out, t') ∧
      ((Row.values c).asStrings t.stream.flags).texts t.stream.flags
        = (Row.values c).texts t.stream.flags ∧
      (fromRows N flags precision
        (pre ++ (Row.values c).asStrings t.stream.flags :: post)).get_widths = some W ∧
      (fromRows N flags precision
        (pre ++ (Row.values c).asStrings t.stream.flags :: post)).get.map Prod.fst = some out ∧
      rendering flags precision W ((Row.values c).asStrings t.stream.flags)
        = rendering flags precision W (Row.values c) := by
  have hinv := ht.stream_inv
  obtain ⟨w1, s1, g1, _⟩ := get_eq t hinv.1
  have hf := foldl_addRow (pre ++ (Row.values c).asStrings t.stream.flags :: post)
    (SimpleTable.new N flags precision)
  have hstream : (fromRows N flags precision
      (pre ++ (Row.values c).asStrings t.stream.flags :: post)).stream
      = (SimpleTable.new N flags precision).stream := hf.2
  have hrows2 : (fromRows N flags precision
      (pre ++ (Row.values c).asStrings t.stream.flags :: post)).rows
      = pre ++ (Row.values c).asStrings t.stream.flags :: post := by
    unfold fromRows
    rw [hf.1]
    rfl
  have hflags2 : (fromRows N flags precision
      (pre ++ (Row.values c).asStrings t.stream.flags :: post)).stream.flags
      = t.stream.flags := by
    rw [hstream, hinv.2.1]
    rfl
  obtain ⟨w2, s2, g2, _⟩ := get_eq (fromRows N flags precision
    (pre ++ (Row.values c).asStrings t.stream.flags :: post)) (by rw [hstream]; rfl)
  rw [hflags2, hrows2] at w2 g2
  have hfold : (pre ++ (Row.values c).asStrings t.stream.flags :: post).foldl
      (raiseRow t.stream.flags) (List.replicate N 0)
      = t.rows.foldl (raiseRow t.stream.flags) (List.replicate N 0) := by
    rw [hrows, List.foldl_append, List.foldl_append, List.foldl_cons, List.foldl_cons,
      raiseRow_asStrings]
  rw [hfold] at w2 g2
  have hmap : (pre ++ (Row.values c).asStrings t.stream.flags :: post).map
      (rowText t.stream.flags (t.rows.foldl (raiseRow t.stream.flags) (List.replicate N 0)))
      = t.rows.map
        (rowText t.stream.flags
          (t.rows.foldl (raiseRow t.stream.flags) (List.replicate N 0))) := by
    rw [hrows, List.map_append, List.map_append, List.map_cons, List.map_cons,
      rowText_asStrings _ _ _ hadj]
  rw [hmap] at g2
  have hW := foldl_raiseRow_length t.stream.flags t.rows (List.replicate N 0) (by simp)
  refine ⟨_, _, _, w1, g1, Row.asStrings_texts _ _, w2, by rw [g2]; rfl, ?_⟩
  rw [rendering_eq flags precision _ hW, rendering_eq flags precision _ hW, ← hinv.2.1,
    rowText_asStrings _ _ _ hadj]

/-- Witness of C15: the value row ("Bob", 7) of the table of Alice and Bob, replaced by
the string row ("Bob", "7"). -/
theorem C15_row_kind_not_observable_witness :
    (Reachable FmtFlags.zero 6 aliceBob ∧ aliceBob.stream.flags.adjust ≠ Adjust.internal ∧
      aliceBob.rows
        = [(Row.values ⟨[Value.str "Alice".toList, Value.int 30], rfl⟩ : Row 2)] ++
          (Row.values ⟨[Value.str "Bob".toList, Value.int 7], rfl⟩ : Row 2) :: []) ∧
    (∃ W out t', aliceBob.get_widths = some W ∧ aliceBob.get = some (out, t') ∧
      ((Row.values ⟨[Value.str "Bob".toList, Value.int 7], rfl⟩ : Row 2).asStrings
          aliceBob.stream.flags).texts aliceBob.stream.flags
        = (Row.values ⟨[Value.str "Bob".toList, Value.int 7], rfl⟩ : Row 2).texts
          aliceBob.stream.flags ∧
      (fromRows 2 FmtFlags.zero 6
        ([(Row.values ⟨[Value.str "Alice".toList, Value.int 30], rfl⟩ : Row 2)] ++
          (Row.values ⟨[Value.str "Bob".toList, Value.int 7], rfl⟩ : Row 2).asStrings
            aliceBob.stream.flags :: [])).get_widths = some W ∧
      (fromRows 2 FmtFlags.zero 6
        ([(Row.values ⟨[Value.str "Alice".toList, Value.int 30], rfl⟩ : Row 2)] ++
          (Row.values ⟨[Value.str "Bob".toList, Value.int 7], rfl⟩ : Row 2).asStrings
            aliceBob.stream.flags :: [])).get.map Prod.fst = some out ∧
      rendering FmtFlags.zero 6 W
          ((Row.values ⟨[Value.str "Bob".toList, Value.int 7], rfl⟩ : Row 2).asStrings
            aliceBob.stream.flags)
        = rendering FmtFlags.zero 6 W
          (Row.values ⟨[Value.str "Bob".toList, Value.int 7], rfl⟩ : Row 2)) ∧
    (Row.values ⟨[Value.str "Bob".toList, Value.int 7], rfl⟩ : Row 2).asStrings
        aliceBob.stream.flags
      = Row.strings ⟨["Bob".toList, "7".toList], rfl⟩ :=
  ⟨⟨Reachable.add _ (Reachable.add _ Reachable.new), by decide, by decide⟩,
    C15_row_kind_not_observable FmtFlags.zero 6 aliceBob
      (Reachable.add _ (Reachable.add _ Reachable.new)) (by decide)
      [Row.values ⟨[Value.str "Alice".toList, Value.int 30], rfl⟩] []
      ⟨[Value.str "Bob".toList, Value.int 7], rfl⟩ (by decide),
    by decide⟩

end Claims

end Hypertheory
